import Mathlib

/-!
Shallow embedding of the two linked-list containers of this repository:
the shared-ownership deque of src/fourth.rs and the raw-pointer queue of
src/fifth.rs.  The mutable heaps are made explicit: a heap is a list of
slots indexed by address, a freed slot holds `none`, and allocation
appends a fresh slot (so the fresh address is the current heap length;
addresses are never reused, which only makes freed slots into inert
junk and changes nothing observable).  All functions are computable so
that every claim can be evaluated on concrete inputs.
-/

set_option maxHeartbeats 1000000

/-- Read the slot at address `a`: `none` for a freed slot or an address
that was never allocated. -/
def hGet : List (Option α) → Nat → Option α
  | [], _ => none
  | o :: _, 0 => o
  | _ :: h, a + 1 => hGet h a

/-- Overwrite the slot at address `a` (no-op out of range, which never
happens on reachable states). -/
def hSet : List (Option α) → Nat → Option α → List (Option α)
  | [], _, _ => []
  | _ :: h, 0, x => x :: h
  | o :: h, a + 1, x => o :: hSet h a x

/-- Runtime faults that the embedding surfaces explicitly instead of
undefined behaviour / a panic: a dangling pointer dereference, or the
failure branch of the checked ownership takeover
(`Rc::try_unwrap(..).ok().unwrap()`) in the deque's pops. -/
inductive RtError where
  | dangling
  | sharedNode
  deriving Repr, DecidableEq

namespace Fifth

/-- Node of src/fifth.rs: `elem` plus the raw `next` pointer
(`none` models the null pointer). -/
structure Node (T : Type) where
  elem : T
  next : Option Nat
  deriving Repr, DecidableEq

/-- List of src/fifth.rs: raw head and tail pointers (`none` is null)
together with the explicit heap of nodes. -/
structure QList (T : Type) where
  head : Option Nat
  tail : Option Nat
  heap : List (Option (Node T))
  deriving Repr, DecidableEq

/-- `List::new`: both pointers null. -/
def QList.new : QList T := ⟨none, none, []⟩

/-- `List::push`: allocate the node with null `next`; if the tail is
null set `head` to the new node, otherwise set the old tail node's
`next`; finally retarget `tail` to the new node. -/
def QList.push (s : QList T) (new_elem : T) : QList T :=
  let new_tail := s.heap.length
  let h0 := s.heap ++ [some ⟨new_elem, none⟩]
  match s.tail with
  | none => { head := some new_tail, tail := some new_tail, heap := h0 }
  | some t =>
      let h1 := match hGet h0 t with
        | some n => hSet h0 t (some { n with next := some new_tail })
        | none => h0   -- dangling tail: unreachable on states built by the API
      { head := s.head, tail := some new_tail, heap := h1 }

/-- `List::pop`: if `head` is null return `none`; otherwise take
ownership of the head node (freeing its slot, as the `Box` drop does),
advance `head` to its successor, and when the chain became empty reset
`tail` to null in the same operation. A dangling `head` is surfaced as
an error (it cannot happen; proved below). -/
def QList.pop (s : QList T) : Except RtError (Option T × QList T) :=
  match s.head with
  | none => .ok (none, s)
  | some h =>
    match hGet s.heap h with
    | none => .error .dangling
    | some old_head =>
      let s1 : QList T := { head := old_head.next, tail := s.tail,
                            heap := hSet s.heap h none }
      let s2 : QList T := if s1.head = none then { s1 with tail := none } else s1
      .ok (some old_head.elem, s2)

/-- `List::peek`: borrowed view of the head value. -/
def QList.peek (s : QList T) : Option T :=
  s.head.bind fun h => (hGet s.heap h).map (·.elem)

/-- `Iterator::next` for `IntoIter`, which simply pops. -/
def QList.intoIterNext (s : QList T) : Except RtError (Option T × QList T) :=
  s.pop

/-- One public operation on the queue. -/
inductive QOp (T : Type) where
  | push (x : T)
  | pop
  deriving Repr, DecidableEq

/-- Run a sequence of operations from a given state, collecting the
results of the pops in order. -/
def runQ : List (QOp T) → QList T → Except RtError (QList T × List (Option T))
  | [], s => .ok (s, [])
  | .push x :: ops, s => runQ ops (s.push x)
  | .pop :: ops, s =>
      match s.pop with
      | .error e => .error e
      | .ok (r, s1) =>
          match runQ ops s1 with
          | .error e => .error e
          | .ok (sf, tr) => .ok (sf, r :: tr)

/-- The abstract FIFO queue the code is supposed to implement: a plain
list, push appends at the back, pop takes the front.  Returns the final
abstract state and the pop results. -/
def runModelQ : List (QOp T) → List T → List T × List (Option T)
  | [], l => (l, [])
  | .push x :: ops, l => runModelQ ops (l ++ [x])
  | .pop :: ops, l =>
      let (lf, tr) := runModelQ ops l.tail
      (lf, l.head? :: tr)

/-- Chain segment: starting from pointer `c`, the nodes listed as
(address, value) pairs are linked in order by `next`, and the last
node's `next` equals `e` (for a whole chain `e = none`). -/
def QSeg (heap : List (Option (Node T))) : Option Nat → List (Nat × T) → Option Nat → Prop
  | c, [], e => c = e
  | c, (a, x) :: as, e =>
      c = some a ∧ ∃ n, hGet heap a = some n ∧ n.elem = x ∧ QSeg heap n.next as e

/-- Representation invariant of the queue: the heap holds the chain
`as` starting at `head`, the tail pointer addresses the last chain node
(null iff the chain is empty), and chain addresses are distinct. -/
def QRep (s : QList T) (as : List (Nat × T)) : Prop :=
  QSeg s.heap s.head as none
  ∧ s.tail = (as.map Prod.fst).getLast?
  ∧ (as.map Prod.fst).Nodup

/-- Follow `next` from pointer `c` for `k` steps. -/
def followN (heap : List (Option (Node T))) : Option Nat → Nat → Option Nat
  | c, 0 => c
  | c, k + 1 =>
    match c with
    | none => none
    | some a =>
      match hGet heap a with
      | none => none
      | some n => followN heap n.next k

end Fifth

namespace Fourth

/-- Node of src/fourth.rs: `elem` plus the shared `next` and `prev`
links (each an `Option<Rc<RefCell<Node>>>`, here an optional heap
address). -/
structure Node (T : Type) where
  elem : T
  next : Option Nat
  prev : Option Nat
  deriving Repr, DecidableEq

/-- List of src/fourth.rs: the head and tail handles plus the explicit
heap of reference-counted nodes. -/
structure DList (T : Type) where
  head : Option Nat
  tail : Option Nat
  heap : List (Option (Node T))
  deriving Repr, DecidableEq

/-- `List::new`: both handles absent. -/
def DList.new : DList T := ⟨none, none, []⟩

/-- Overwrite the `next` field of the node at `a` (no-op for a missing
slot, which never happens on reachable states). -/
def setNext (h : List (Option (Node T))) (a : Nat) (p : Option Nat) :
    List (Option (Node T)) :=
  match hGet h a with
  | some n => hSet h a (some { n with next := p })
  | none => h

/-- Overwrite the `prev` field of the node at `a` (no-op for a missing
slot, which never happens on reachable states). -/
def setPrev (h : List (Option (Node T))) (a : Nat) (p : Option Nat) :
    List (Option (Node T)) :=
  match hGet h a with
  | some n => hSet h a (some { n with prev := p })
  | none => h

/-- `List::push_front`: allocate the node; if there was an old head,
link the new node before it and move the head handle, otherwise set
both handles to the new node. -/
def DList.push_front (s : DList T) (elem : T) : DList T :=
  let new_head := s.heap.length
  let h0 := s.heap ++ [some ⟨elem, none, none⟩]
  match s.head with
  | some old_head =>
      -- self.head = Some(new_head.clone());
      -- old_head.borrow_mut().prev = Some(new_head.clone());
      -- new_head.borrow_mut().next = Some(old_head);
      let h1 := setPrev h0 old_head (some new_head)
      let h2 := setNext h1 new_head (some old_head)
      { head := some new_head, tail := s.tail, heap := h2 }
  | none =>
      -- self.head = Some(new_head.clone());
      -- self.tail = Some(new_head);
      { head := some new_head, tail := some new_head, heap := h0 }

/-- `List::push_back` as written in the source.  Note that in the
empty-tail branch the source executes, in order,
`self.tail = Some(new_tail.clone()); self.tail = Some(new_tail);`:
the tail handle is assigned twice and the head handle is never
assigned in that branch. -/
def DList.push_back (s : DList T) (elem : T) : DList T :=
  let new_tail := s.heap.length
  let h0 := s.heap ++ [some ⟨elem, none, none⟩]
  match s.tail with
  | some old_tail =>
      -- self.tail = Some(new_tail.clone());
      -- old_tail.borrow_mut().next = Some(new_tail.clone());
      -- new_tail.borrow_mut().prev = Some(old_tail);
      let h1 := setNext h0 old_tail (some new_tail)
      let h2 := setPrev h1 new_tail (some old_tail)
      { head := s.head, tail := some new_tail, heap := h2 }
  | none =>
      let s1 : DList T := { head := s.head, tail := some new_tail, heap := h0 }
      { head := s1.head, tail := some new_tail, heap := s1.heap }

/-- Strong-reference contributions to the node at `a` coming from the
`next` and `prev` fields of the (live) nodes stored in the heap. -/
def refsHeap (a : Nat) : List (Option (Node T)) → Nat
  | [] => 0
  | none :: h => refsHeap a h
  | some n :: h =>
      (if n.next = some a then 1 else 0) + (if n.prev = some a then 1 else 0)
        + refsHeap a h

/-- Strong count of the `Rc` of the node at address `a` held in the
fields of the state (head handle, tail handle, and every node's links);
at the `Rc::try_unwrap` point of a pop, the popped local holds one more
reference, so the takeover succeeds exactly when this count is 0. -/
def refsIn (a : Nat) (s : DList T) : Nat :=
  (if s.head = some a then 1 else 0) + (if s.tail = some a then 1 else 0)
    + refsHeap a s.heap

/-- `List::pop_front`: take the head handle; detach the old head from
its successor (or clear the tail handle when it was the last node);
then take unique ownership of the node via `Rc::try_unwrap(..).ok().unwrap()`,
which fails loudly when the node is still shared. -/
def DList.pop_front (s : DList T) : Except RtError (Option T × DList T) :=
  match s.head with
  | none => .ok (none, s)
  | some old_head =>
    match hGet s.heap old_head with
    | none => .error .dangling
    | some n =>
      -- old_head.borrow_mut().next.take()
      let h1 := hSet s.heap old_head (some { n with next := none })
      let s1 : DList T :=
        match n.next with
        | some new_head =>
            -- new_head.borrow_mut().prev.take(); self.head = Some(new_head);
            { head := some new_head, tail := s.tail, heap := setPrev h1 new_head none }
        | none =>
            -- list is emptied after this pop: self.tail.take()
            { head := none, tail := none, heap := h1 }
      if refsIn old_head s1 = 0 then
        .ok (some n.elem, { s1 with heap := hSet s1.heap old_head none })
      else .error .sharedNode

/-- `List::pop_back`, symmetric to `pop_front`. -/
def DList.pop_back (s : DList T) : Except RtError (Option T × DList T) :=
  match s.tail with
  | none => .ok (none, s)
  | some old_tail =>
    match hGet s.heap old_tail with
    | none => .error .dangling
    | some n =>
      -- old_tail.borrow_mut().prev.take()
      let h1 := hSet s.heap old_tail (some { n with prev := none })
      let s1 : DList T :=
        match n.prev with
        | some new_tail =>
            -- new_tail.borrow_mut().next.take(); self.tail = Some(new_tail);
            { head := s.head, tail := some new_tail, heap := setNext h1 new_tail none }
        | none =>
            -- list is emptied after this pop: self.head.take()
            { head := none, tail := none, heap := h1 }
      if refsIn old_tail s1 = 0 then
        .ok (some n.elem, { s1 with heap := hSet s1.heap old_tail none })
      else .error .sharedNode

/-- Borrow flag of a RefCell, modelled from std::cell semantics (the
deque's peeks call borrow / borrow_mut on the node): 0 when free,
k > 0 with k live shared borrows, -1 with a live mutable borrow. -/
abbrev BorrowFlag := Int

/-- A shared borrow succeeds while no mutable borrow is live. -/
def tryBorrow (f : BorrowFlag) : Except Unit BorrowFlag :=
  if 0 ≤ f then .ok (f + 1) else .error ()

/-- A mutable borrow succeeds only while no borrow at all is live. -/
def tryBorrowMut (f : BorrowFlag) : Except Unit BorrowFlag :=
  if f = 0 then .ok (-1) else .error ()

/-- Dropping a Ref handle releases one shared borrow. -/
def releaseBorrow (f : BorrowFlag) : BorrowFlag := f - 1

/-- Dropping a RefMut handle releases the mutable borrow. -/
def releaseBorrowMut (_ : BorrowFlag) : BorrowFlag := 0

/-- `List::peek_front`:
`self.head.as_ref().map(|node| Ref::map(node.borrow(), |node| &node.elem))`.
`flags a` is the current borrow flag of the value slot of the node at
address `a`; the runtime check of `borrow` is surfaced as an explicit
borrow-conflict error together with the updated flag on success. -/
def DList.peek_front (s : DList T) (flags : Nat → BorrowFlag) :
    Option (Except Unit (T × BorrowFlag)) :=
  s.head.map fun a =>
    match hGet s.heap a with
    | none => .error ()
    | some n => (tryBorrow (flags a)).map fun f => (n.elem, f)

/-- `List::peek_front_mut`, with the runtime check of `borrow_mut`. -/
def DList.peek_front_mut (s : DList T) (flags : Nat → BorrowFlag) :
    Option (Except Unit (T × BorrowFlag)) :=
  s.head.map fun a =>
    match hGet s.heap a with
    | none => .error ()
    | some n => (tryBorrowMut (flags a)).map fun f => (n.elem, f)

/-- `List::peek_back`. -/
def DList.peek_back (s : DList T) (flags : Nat → BorrowFlag) :
    Option (Except Unit (T × BorrowFlag)) :=
  s.tail.map fun a =>
    match hGet s.heap a with
    | none => .error ()
    | some n => (tryBorrow (flags a)).map fun f => (n.elem, f)

/-- `List::peek_back_mut`. -/
def DList.peek_back_mut (s : DList T) (flags : Nat → BorrowFlag) :
    Option (Except Unit (T × BorrowFlag)) :=
  s.tail.map fun a =>
    match hGet s.heap a with
    | none => .error ()
    | some n => (tryBorrowMut (flags a)).map fun f => (n.elem, f)

/-- One public operation on the deque. -/
inductive DOp (T : Type) where
  | push_front (x : T)
  | push_back (x : T)
  | pop_front
  | pop_back
  deriving Repr, DecidableEq

/-- Run a sequence of operations from a given state, collecting the
results of the pops in order. -/
def runD : List (DOp T) → DList T → Except RtError (DList T × List (Option T))
  | [], s => .ok (s, [])
  | .push_front x :: ops, s => runD ops (s.push_front x)
  | .push_back x :: ops, s => runD ops (s.push_back x)
  | .pop_front :: ops, s =>
      match s.pop_front with
      | .error e => .error e
      | .ok (r, s1) =>
          match runD ops s1 with
          | .error e => .error e
          | .ok (sf, tr) => .ok (sf, r :: tr)
  | .pop_back :: ops, s =>
      match s.pop_back with
      | .error e => .error e
      | .ok (r, s1) =>
          match runD ops s1 with
          | .error e => .error e
          | .ok (sf, tr) => .ok (sf, r :: tr)

/-- Direction of one step of the consuming iterator: `front` is
`Iterator::next` (pop_front), `back` is
`DoubleEndedIterator::next_back` (pop_back). -/
inductive IterDir where
  | front
  | back
  deriving Repr, DecidableEq

/-- One step of the consuming iterator. -/
def iterStep (s : DList T) : IterDir → Except RtError (Option T × DList T)
  | .front => s.pop_front
  | .back => s.pop_back

/-- Run an interleaving of forward and backward iterator steps,
recording each step's direction and yielded value. -/
def iterRun : List IterDir → DList T → Except RtError (List (IterDir × Option T) × DList T)
  | [], s => .ok ([], s)
  | d :: ds, s =>
      match iterStep s d with
      | .error e => .error e
      | .ok (r, s1) =>
          match iterRun ds s1 with
          | .error e => .error e
          | .ok (tr, sf) => .ok ((d, r) :: tr, sf)

/-- The values yielded by the forward steps of a recorded trace. -/
def frontYields (tr : List (IterDir × Option T)) : List T :=
  tr.filterMap fun p =>
    match p with
    | (.front, some x) => some x
    | _ => none

/-- The values yielded by the backward steps of a recorded trace. -/
def backYields (tr : List (IterDir × Option T)) : List T :=
  tr.filterMap fun p =>
    match p with
    | (.back, some x) => some x
    | _ => none

/-- `impl Drop for List`: `while self.pop_front().is_some() {}`, with
explicit fuel; it returns the state at which pop_front first returned
`none` (any fuel at least the number of loop iterations gives the same
result). -/
def dropLoop : Nat → DList T → Except RtError (DList T)
  | 0, s => .ok s
  | fuel + 1, s =>
      match s.pop_front with
      | .error e => .error e
      | .ok (some _, s1) => dropLoop fuel s1
      | .ok (none, s1) => .ok s1

/-- Doubly-linked segment: starting from pointer `c`, the nodes listed
as (address, value) pairs are linked in order by `next`, each node's
`prev` points at its predecessor (the first node's `prev` equals `p`),
and the last node's `next` equals `e` (for a whole chain `p = e = none`). -/
def DSeg (heap : List (Option (Node T))) :
    Option Nat → Option Nat → List (Nat × T) → Option Nat → Prop
  | _, c, [], e => c = e
  | p, c, (a, x) :: as, e =>
      c = some a ∧ ∃ n, hGet heap a = some n ∧ n.elem = x ∧ n.prev = p ∧
        DSeg heap (some a) n.next as e

/-- The address of the last node of `as`, or `p` when `as` is empty
(the pointer a segment appended after `as` sees as its predecessor). -/
def endPtr (p : Option Nat) (as : List (Nat × T)) : Option Nat :=
  match (as.map Prod.fst).getLast? with
  | some t => some t
  | none => p

/-- No node outside the given address set references a node inside it
(junk left behind by the push_back slip or by freed singletons never
points into the live chain). -/
def NoOutsideRefs (heap : List (Option (Node T))) (addrs : List Nat) : Prop :=
  ∀ b n, hGet heap b = some n → b ∉ addrs →
    ∀ a ∈ addrs, n.next ≠ some a ∧ n.prev ≠ some a

/-- Every link stored in the heap points below the heap length, so a
freshly allocated address is never referenced. -/
def LinksBounded (heap : List (Option (Node T))) : Prop :=
  ∀ b n, hGet heap b = some n →
    (∀ m, n.next = some m → m < heap.length) ∧
    (∀ m, n.prev = some m → m < heap.length)

/-- Representation invariant of the deque.  `as` is the live chain in
order; `b` records the shape: when `b = true` the head handle points at
the first chain node (absent iff the chain is empty), and when
`b = false` the head handle is absent although the chain is not (the
state produced by push_back on an empty list, whose source never
assigns the head).  In both shapes the tail handle points at the last
chain node, chain addresses are distinct, and junk nodes neither reach
into the chain nor into fresh addresses. -/
def DRep (s : DList T) (as : List (Nat × T)) (b : Bool) : Prop :=
  DSeg s.heap none ((as.map Prod.fst).head?) as none
  ∧ (b = true → s.head = (as.map Prod.fst).head?)
  ∧ (b = false → s.head = none ∧ as ≠ [])
  ∧ s.tail = (as.map Prod.fst).getLast?
  ∧ (as.map Prod.fst).Nodup
  ∧ NoOutsideRefs s.heap (as.map Prod.fst)
  ∧ LinksBounded s.heap

end Fourth

/-! Basic lemmas about the heap primitives. -/

theorem hGet_lt_length {α : Type _} :
    ∀ (h : List (Option α)) (a : Nat) (n : α), hGet h a = some n → a < h.length := by
  intro h
  induction h with
  | nil => intro a n hx; cases hx
  | cons o t ih =>
      intro a n hx
      cases a with
      | zero => exact Nat.succ_pos _
      | succ a => exact Nat.succ_lt_succ (ih a n hx)

theorem hSet_length {α : Type _} :
    ∀ (h : List (Option α)) (a : Nat) (x : Option α), (hSet h a x).length = h.length := by
  intro h
  induction h with
  | nil => intro a x; rfl
  | cons o t ih =>
      intro a x
      cases a with
      | zero => rfl
      | succ a => simpa [hSet] using ih a x

theorem hGet_hSet_self {α : Type _} :
    ∀ (h : List (Option α)) (a : Nat) (x : Option α), a < h.length →
      hGet (hSet h a x) a = x := by
  intro h
  induction h with
  | nil => intro a x ha; cases ha
  | cons o t ih =>
      intro a x ha
      cases a with
      | zero => rfl
      | succ a => exact ih a x (Nat.lt_of_succ_lt_succ ha)

theorem hGet_hSet_ne {α : Type _} :
    ∀ (h : List (Option α)) (a b : Nat) (x : Option α), a ≠ b →
      hGet (hSet h b x) a = hGet h a := by
  intro h
  induction h with
  | nil => intro a b x hab; rfl
  | cons o t ih =>
      intro a b x hab
      cases a with
      | zero =>
          cases b with
          | zero => exact absurd rfl hab
          | succ b => rfl
      | succ a =>
          cases b with
          | zero => rfl
          | succ b => exact ih a b x (fun he => hab (by rw [he]))

theorem hGet_append_left {α : Type _} :
    ∀ (h l : List (Option α)) (a : Nat), a < h.length →
      hGet (h ++ l) a = hGet h a := by
  intro h
  induction h with
  | nil => intro l a ha; cases ha
  | cons o t ih =>
      intro l a ha
      cases a with
      | zero => rfl
      | succ a => exact ih l a (Nat.lt_of_succ_lt_succ ha)

theorem hGet_append_self {α : Type _} :
    ∀ (h : List (Option α)) (x : Option α), hGet (h ++ [x]) h.length = x := by
  intro h
  induction h with
  | nil => intro x; rfl
  | cons o t ih => intro x; exact ih x

/-! Lemmas about the queue's representation invariant. -/

namespace Fifth

theorem QSeg_set_outside {T : Type} :
    ∀ (as : List (Nat × T)) (h : List (Option (Node T))) (c e : Option Nat)
      (b : Nat) (x : Option (Node T)),
      (∀ p ∈ as, b ≠ p.1) → QSeg h c as e → QSeg (hSet h b x) c as e := by
  intro as
  induction as with
  | nil => intro h c e b x _ hs; exact hs
  | cons p rest ih =>
      intro h c e b x hb hs
      obtain ⟨a, v⟩ := p
      obtain ⟨hc, n, hn, he, hrest⟩ := hs
      refine ⟨hc, n, ?_, he, ih h n.next e b x (fun q hq => hb q (List.mem_cons_of_mem _ hq)) hrest⟩
      rw [hGet_hSet_ne h a b x (fun hab => hb (a, v) (List.mem_cons_self _ _) hab.symm)]
      exact hn

theorem QSeg_append_heap {T : Type} :
    ∀ (as : List (Nat × T)) (h l : List (Option (Node T))) (c e : Option Nat),
      QSeg h c as e → QSeg (h ++ l) c as e := by
  intro as
  induction as with
  | nil => intro h l c e hs; exact hs
  | cons p rest ih =>
      intro h l c e hs
      obtain ⟨a, v⟩ := p
      obtain ⟨hc, n, hn, he, hrest⟩ := hs
      exact ⟨hc, n, by rw [hGet_append_left h l a (hGet_lt_length h a n hn)]; exact hn,
        he, ih h l n.next e hrest⟩

theorem QSeg_compose {T : Type} :
    ∀ (as bs : List (Nat × T)) (h : List (Option (Node T))) (c q e : Option Nat),
      QSeg h c as q → QSeg h q bs e → QSeg h c (as ++ bs) e := by
  intro as
  induction as with
  | nil => intro bs h c q e h1 h2; cases h1; exact h2
  | cons p rest ih =>
      intro bs h c q e h1 h2
      obtain ⟨a, v⟩ := p
      obtain ⟨hc, n, hn, he, hrest⟩ := h1
      exact ⟨hc, n, hn, he, ih bs h n.next q e hrest h2⟩

theorem QSeg_snoc {T : Type} :
    ∀ (as : List (Nat × T)) (h : List (Option (Node T))) (c e : Option Nat) (t : Nat) (x : T),
      QSeg h c (as ++ [(t, x)]) e →
      QSeg h c as (some t) ∧ ∃ n, hGet h t = some n ∧ n.elem = x ∧ n.next = e := by
  intro as
  induction as with
  | nil =>
      intro h c e t x hs
      obtain ⟨hc, n, hn, he, hrest⟩ := hs
      exact ⟨hc, n, hn, he, hrest⟩
  | cons p rest ih =>
      intro h c e t x hs
      obtain ⟨a, v⟩ := p
      obtain ⟨hc, n, hn, he, hrest⟩ := hs
      obtain ⟨h1, h2⟩ := ih h n.next e t x hrest
      exact ⟨⟨hc, n, hn, he, h1⟩, h2⟩

theorem QSeg_mem_lt {T : Type} :
    ∀ (as : List (Nat × T)) (h : List (Option (Node T))) (c e : Option Nat),
      QSeg h c as e → ∀ p ∈ as, p.1 < h.length := by
  intro as
  induction as with
  | nil => intro h c e _ p hp; cases hp
  | cons q rest ih =>
      intro h c e hs p hp
      obtain ⟨a, v⟩ := q
      obtain ⟨hc, n, hn, he, hrest⟩ := hs
      rcases List.mem_cons.mp hp with rfl | hp
      · exact hGet_lt_length h a n hn
      · exact ih h n.next e hrest p hp

theorem QSeg_followN {T : Type} :
    ∀ (as : List (Nat × T)) (h : List (Option (Node T))) (c e : Option Nat),
      QSeg h c as e → followN h c as.length = e := by
  intro as
  induction as with
  | nil => intro h c e hs; exact hs
  | cons p rest ih =>
      intro h c e hs
      obtain ⟨a, v⟩ := p
      obtain ⟨hc, n, hn, he, hrest⟩ := hs
      subst hc
      simp only [List.length_cons, followN, hn]
      exact ih h n.next e hrest

theorem QRep_push {T : Type} (s : QList T) (as : List (Nat × T)) (x : T)
    (hr : QRep s as) : QRep (s.push x) (as ++ [(s.heap.length, x)]) := by
  obtain ⟨hseg, htail, hnd⟩ := hr
  rcases as.eq_nil_or_concat with rfl | ⟨bs, p, hbsp⟩
  · -- empty chain: the tail pointer is null, head is set to the new node
    have hh : s.head = none := hseg
    have ht : s.tail = none := by simpa using htail
    simp only [QList.push, ht, hh]
    refine ⟨⟨rfl, ⟨x, none⟩, hGet_append_self s.heap _, rfl, rfl⟩, by simp, by simp⟩
  · rw [List.concat_eq_append] at hbsp
    subst hbsp
    obtain ⟨t, y⟩ := p
    have htl : (((bs ++ [(t, y)]).map Prod.fst).getLast?) = some t := by
      simp only [List.map_append, List.map_cons, List.map_nil]
      exact List.getLast?_concat _
    have ht : s.tail = some t := by rw [htail, htl]
    obtain ⟨hbs, nt, hnt, hel, hnx⟩ := QSeg_snoc bs s.heap s.head none t y hseg
    have htlt : t < s.heap.length := hGet_lt_length s.heap t nt hnt
    have htlt0 : t < (s.heap ++ [some (⟨x, none⟩ : Node T)]).length := by
      simp only [List.length_append, List.length_cons, List.length_nil]
      omega
    have hget0 : hGet (s.heap ++ [some (⟨x, none⟩ : Node T)]) t = some nt := by
      rw [hGet_append_left s.heap _ t htlt]; exact hnt
    have htfresh : t ≠ s.heap.length := by omega
    have hndfst : ((bs ++ [(t, y)]).map Prod.fst).Nodup := hnd
    have htnotbs : ∀ p ∈ bs, t ≠ p.1 := by
      intro p hp he
      rw [List.map_append, List.map_cons, List.map_nil] at hndfst
      have hdisj := List.disjoint_of_nodup_append hndfst
      exact hdisj (List.mem_map_of_mem Prod.fst hp) (List.mem_singleton.mpr he.symm)
    have hfreshmem : ∀ p ∈ bs ++ [(t, y)], s.heap.length ≠ p.1 := by
      intro p hp he
      have := QSeg_mem_lt _ s.heap s.head none hseg p hp
      omega
    simp only [QList.push, ht, hget0]
    constructor
    · -- the new chain: bs ++ [(t,y)] ++ [(len,x)]
      have hbs1 : QSeg (hSet (s.heap ++ [some ⟨x, none⟩]) t
          (some { nt with next := some s.heap.length })) s.head bs (some t) :=
        QSeg_set_outside bs _ s.head (some t) t _ htnotbs
          (QSeg_append_heap bs s.heap _ s.head (some t) hbs)
      have hseg2 : QSeg (hSet (s.heap ++ [some ⟨x, none⟩]) t
          (some { nt with next := some s.heap.length })) (some t)
          ([(t, y)] ++ [(s.heap.length, x)]) none := by
        refine ⟨rfl, { nt with next := some s.heap.length },
          hGet_hSet_self _ t _ htlt0, hel, ?_⟩
        refine ⟨rfl, ⟨x, none⟩, ?_, rfl, rfl⟩
        rw [hGet_hSet_ne _ _ _ _ (fun he => htfresh he.symm), hGet_append_self]
      have := QSeg_compose bs ([(t, y)] ++ [(s.heap.length, x)]) _ s.head (some t) none hbs1 hseg2
      simpa [List.append_assoc] using this
    constructor
    · simp
    · rw [List.map_append, List.nodup_append]
      refine ⟨hndfst, List.nodup_singleton _, ?_⟩
      intro a ha hb
      rw [List.map_cons, List.map_nil, List.mem_singleton] at hb
      obtain ⟨p, hp, hpa⟩ := List.mem_map.mp ha
      have := QSeg_mem_lt _ s.heap s.head none hseg p hp
      omega

theorem QRep_pop_nil {T : Type} (s : QList T) (hr : QRep s ([] : List (Nat × T))) :
    s.pop = .ok (none, s) := by
  obtain ⟨hseg, _, _⟩ := hr
  have hh : s.head = none := hseg
  simp [QList.pop, hh]

theorem QRep_pop_cons {T : Type} (s : QList T) (a : Nat) (x : T) (rest : List (Nat × T))
    (hr : QRep s ((a, x) :: rest)) :
    ∃ s', s.pop = .ok (some x, s') ∧ QRep s' rest ∧ s'.heap.length = s.heap.length := by
  obtain ⟨hseg, htail, hnd⟩ := hr
  obtain ⟨hc, n, hn, hel, hrest⟩ := hseg
  have hanotrest : ∀ p ∈ rest, a ≠ p.1 := by
    intro p hp he
    simp only [List.map_cons, List.nodup_cons] at hnd
    exact hnd.1 (he ▸ List.mem_map_of_mem Prod.fst hp)
  have hseg' : QSeg (hSet s.heap a none) n.next rest none :=
    QSeg_set_outside rest s.heap n.next none a none hanotrest hrest
  cases hrest' : rest with
  | nil =>
      subst hrest'
      have hnx : n.next = none := hrest
      refine ⟨⟨none, none, hSet s.heap a none⟩, ?_, ⟨by exact hnx ▸ hseg', by simp, by simp⟩,
        hSet_length s.heap a none⟩
      simp only [QList.pop, hc, hn, hnx, hel]
      rfl
  | cons q rest2 =>
      subst hrest'
      obtain ⟨b, y⟩ := q
      have hnx : n.next = some b := hrest.1
      refine ⟨⟨n.next, s.tail, hSet s.heap a none⟩, ?_, ⟨hseg', ?_, ?_⟩,
        hSet_length s.heap a none⟩
      · simp only [QList.pop, hc, hn, hel, hnx]
        rfl
      · rw [htail]
        simp only [List.map_cons]
        rw [List.getLast?_cons_cons]
      · have h2 := (List.nodup_cons.mp (by simpa only [List.map_cons] using hnd)).2
        simpa only [List.map_cons] using h2

theorem QRep_peek {T : Type} (s : QList T) (as : List (Nat × T)) (hr : QRep s as) :
    s.peek = (as.map Prod.snd).head? := by
  obtain ⟨hseg, _, _⟩ := hr
  cases as with
  | nil =>
      have hh : s.head = none := hseg
      simp [QList.peek, hh]
  | cons p rest =>
      obtain ⟨a, x⟩ := p
      obtain ⟨hc, n, hn, hel, _⟩ := hseg
      simp [QList.peek, hc, hn, hel]

theorem QRep_head_none_iff {T : Type} (s : QList T) (as : List (Nat × T))
    (hr : QRep s as) : s.head = none ↔ as = [] := by
  obtain ⟨hseg, _, _⟩ := hr
  cases as with
  | nil => exact ⟨fun _ => rfl, fun _ => hseg⟩
  | cons p rest =>
      obtain ⟨a, x⟩ := p
      refine ⟨fun hh => ?_, fun he => by cases he⟩
      rw [hseg.1] at hh
      cases hh

theorem runQ_sim {T : Type} :
    ∀ (ops : List (QOp T)) (s : QList T) (as : List (Nat × T)), QRep s as →
      ∃ sf asf, runQ ops s = .ok (sf, (runModelQ ops (as.map Prod.snd)).2)
        ∧ QRep sf asf ∧ asf.map Prod.snd = (runModelQ ops (as.map Prod.snd)).1 := by
  intro ops
  induction ops with
  | nil => intro s as hr; exact ⟨s, as, rfl, hr, rfl⟩
  | cons op rest ih =>
      intro s as hr
      cases op with
      | push x =>
          obtain ⟨sf, asf, hrun, hrep, habs⟩ := ih (s.push x) (as ++ [(s.heap.length, x)])
            (QRep_push s as x hr)
          refine ⟨sf, asf, ?_, hrep, ?_⟩
          · simpa [runQ, runModelQ] using hrun
          · simpa [runModelQ] using habs
      | pop =>
          cases has : as with
          | nil =>
              subst has
              obtain ⟨sf, asf, hrun, hrep, habs⟩ := ih s [] hr
              refine ⟨sf, asf, ?_, hrep, ?_⟩
              · simp only [runQ, QRep_pop_nil s hr, runModelQ, List.map_nil]
                rw [hrun]
                rfl
              · simpa [runModelQ] using habs
          | cons p rest2 =>
              subst has
              obtain ⟨a, x⟩ := p
              obtain ⟨s', hpop, hrep', _⟩ := QRep_pop_cons s a x rest2 hr
              obtain ⟨sf, asf, hrun, hrep, habs⟩ := ih s' rest2 hrep'
              refine ⟨sf, asf, ?_, hrep, ?_⟩
              · simp only [runQ, hpop, runModelQ, List.map_cons, List.tail_cons,
                  List.head?_cons]
                rw [hrun]
              · simpa [runModelQ] using habs

end Fifth

/-! Lemmas about the deque's representation invariant. -/

namespace Fourth

theorem endPtr_cons {T : Type} (p : Option Nat) (a : Nat) (v : T) (rest : List (Nat × T)) :
    endPtr p ((a, v) :: rest) = endPtr (some a) rest := by
  unfold endPtr
  cases rest with
  | nil => rfl
  | cons q r2 =>
      simp only [List.map_cons, List.getLast?_cons_cons]
      rcases hgl : (q.1 :: List.map Prod.fst r2).getLast? with _ | t
      · rw [List.getLast?_eq_none_iff] at hgl
        cases hgl
      · rfl

theorem DSeg_set_outside {T : Type} :
    ∀ (as : List (Nat × T)) (h : List (Option (Node T))) (p c e : Option Nat)
      (b : Nat) (x : Option (Node T)),
      (∀ q ∈ as, b ≠ q.1) → DSeg h p c as e → DSeg (hSet h b x) p c as e := by
  intro as
  induction as with
  | nil => intro h p c e b x _ hs; exact hs
  | cons q rest ih =>
      intro h p c e b x hb hs
      obtain ⟨a, v⟩ := q
      obtain ⟨hc, n, hn, hel, hpv, hrest⟩ := hs
      refine ⟨hc, n, ?_, hel, hpv,
        ih h (some a) n.next e b x (fun q hq => hb q (List.mem_cons_of_mem _ hq)) hrest⟩
      rw [hGet_hSet_ne h a b x (fun hab => hb (a, v) (List.mem_cons_self _ _) hab.symm)]
      exact hn

theorem DSeg_append_heap {T : Type} :
    ∀ (as : List (Nat × T)) (h l : List (Option (Node T))) (p c e : Option Nat),
      DSeg h p c as e → DSeg (h ++ l) p c as e := by
  intro as
  induction as with
  | nil => intro h l p c e hs; exact hs
  | cons q rest ih =>
      intro h l p c e hs
      obtain ⟨a, v⟩ := q
      obtain ⟨hc, n, hn, hel, hpv, hrest⟩ := hs
      exact ⟨hc, n, by rw [hGet_append_left h l a (hGet_lt_length h a n hn)]; exact hn,
        hel, hpv, ih h l (some a) n.next e hrest⟩

theorem DSeg_compose {T : Type} :
    ∀ (as bs : List (Nat × T)) (h : List (Option (Node T))) (p c q e : Option Nat),
      DSeg h p c as q → DSeg h (endPtr p as) q bs e → DSeg h p c (as ++ bs) e := by
  intro as
  induction as with
  | nil =>
      intro bs h p c q e h1 h2
      cases h1
      exact h2
  | cons r rest ih =>
      intro bs h p c q e h1 h2
      obtain ⟨a, v⟩ := r
      obtain ⟨hc, n, hn, hel, hpv, hrest⟩ := h1
      rw [endPtr_cons] at h2
      exact ⟨hc, n, hn, hel, hpv, ih bs h (some a) n.next q e hrest h2⟩

theorem DSeg_snoc {T : Type} :
    ∀ (as : List (Nat × T)) (h : List (Option (Node T))) (p c e : Option Nat) (t : Nat) (x : T),
      DSeg h p c (as ++ [(t, x)]) e →
      DSeg h p c as (some t) ∧
        ∃ n, hGet h t = some n ∧ n.elem = x ∧ n.prev = endPtr p as ∧ n.next = e := by
  intro as
  induction as with
  | nil =>
      intro h p c e t x hs
      obtain ⟨hc, n, hn, hel, hpv, hrest⟩ := hs
      exact ⟨hc, n, hn, hel, hpv, hrest⟩
  | cons q rest ih =>
      intro h p c e t x hs
      obtain ⟨a, v⟩ := q
      obtain ⟨hc, n, hn, hel, hpv, hrest⟩ := hs
      obtain ⟨h1, h2⟩ := ih h (some a) n.next e t x hrest
      rw [← endPtr_cons p a v rest] at h2
      exact ⟨⟨hc, n, hn, hel, hpv, h1⟩, h2⟩

theorem DSeg_mem_lt {T : Type} :
    ∀ (as : List (Nat × T)) (h : List (Option (Node T))) (p c e : Option Nat),
      DSeg h p c as e → ∀ q ∈ as, q.1 < h.length := by
  intro as
  induction as with
  | nil => intro h p c e _ q hq; cases hq
  | cons r rest ih =>
      intro h p c e hs q hq
      obtain ⟨a, v⟩ := r
      obtain ⟨hc, n, hn, hel, hpv, hrest⟩ := hs
      rcases List.mem_cons.mp hq with rfl | hq
      · exact hGet_lt_length h a n hn
      · exact ih h (some a) n.next e hrest q hq

theorem DSeg_links {T : Type} :
    ∀ (as : List (Nat × T)) (h : List (Option (Node T))) (p c e : Option Nat),
      DSeg h p c as e → ∀ q ∈ as, ∃ n, hGet h q.1 = some n ∧
        (n.next = e ∨ ∃ r ∈ as, n.next = some r.1) ∧
        (n.prev = p ∨ ∃ r ∈ as, n.prev = some r.1) := by
  intro as
  induction as with
  | nil => intro h p c e _ q hq; cases hq
  | cons r rest ih =>
      intro h p c e hs q hq
      obtain ⟨a, v⟩ := r
      obtain ⟨hc, n, hn, hel, hpv, hrest⟩ := hs
      rcases List.mem_cons.mp hq with rfl | hq
      · refine ⟨n, hn, ?_, Or.inl hpv⟩
        cases hrest' : rest with
        | nil =>
            subst hrest'
            exact Or.inl hrest
        | cons r2 rest2 =>
            subst hrest'
            obtain ⟨b, w⟩ := r2
            exact Or.inr ⟨(b, w), List.mem_cons_of_mem _ (List.mem_cons_self _ _), hrest.1⟩
      · obtain ⟨n', hn', hnx, hpv'⟩ := ih h (some a) n.next e hrest q hq
        refine ⟨n', hn', ?_, ?_⟩
        · rcases hnx with he | ⟨r, hr, hre⟩
          · exact Or.inl he
          · exact Or.inr ⟨r, List.mem_cons_of_mem _ hr, hre⟩
        · rcases hpv' with he | ⟨r, hr, hre⟩
          · exact Or.inr ⟨(a, v), List.mem_cons_self _ _, he⟩
          · exact Or.inr ⟨r, List.mem_cons_of_mem _ hr, hre⟩

theorem hGet_append_cases {α : Type _} :
    ∀ (h : List (Option α)) (o : Option α) (b : Nat) (n : α),
      hGet (h ++ [o]) b = some n →
      (b < h.length ∧ hGet h b = some n) ∨ (b = h.length ∧ o = some n) := by
  intro h
  induction h with
  | nil =>
      intro o b n hn
      cases b with
      | zero => exact Or.inr ⟨rfl, hn⟩
      | succ b => cases b <;> cases hn
  | cons c t ih =>
      intro o b n hn
      cases b with
      | zero => exact Or.inl ⟨Nat.succ_pos _, hn⟩
      | succ b =>
          rcases ih o b n hn with ⟨hb, hg⟩ | ⟨hb, hg⟩
          · exact Or.inl ⟨Nat.succ_lt_succ hb, hg⟩
          · exact Or.inr ⟨by rw [hb]; rfl, hg⟩

theorem push_front_eq_none {T : Type} (s : DList T) (x : T) (hh : s.head = none) :
    s.push_front x = { head := some s.heap.length, tail := some s.heap.length,
                       heap := s.heap ++ [some ⟨x, none, none⟩] } := by
  unfold DList.push_front
  rw [hh]

theorem push_front_eq_some {T : Type} (s : DList T) (x : T) (oh : Nat)
    (hh : s.head = some oh) :
    s.push_front x = { head := some s.heap.length, tail := s.tail,
                       heap := setNext (setPrev (s.heap ++ [some ⟨x, none, none⟩]) oh
                         (some s.heap.length)) s.heap.length (some oh) } := by
  unfold DList.push_front
  rw [hh]

theorem push_back_eq_none {T : Type} (s : DList T) (x : T) (ht : s.tail = none) :
    s.push_back x = { head := s.head, tail := some s.heap.length,
                      heap := s.heap ++ [some ⟨x, none, none⟩] } := by
  unfold DList.push_back
  rw [ht]

theorem push_back_eq_some {T : Type} (s : DList T) (x : T) (ot : Nat)
    (ht : s.tail = some ot) :
    s.push_back x = { head := s.head, tail := some s.heap.length,
                      heap := setPrev (setNext (s.heap ++ [some ⟨x, none, none⟩]) ot
                        (some s.heap.length)) s.heap.length (some ot) } := by
  unfold DList.push_back
  rw [ht]

theorem NoOutsideRefs_step {T : Type} (h H : List (Option (Node T))) (addrs addrs2 : List Nat)
    (hout : NoOutsideRefs h addrs) (hbd : LinksBounded h)
    (hagree : ∀ b, b ∉ addrs2 → hGet H b = none ∨ hGet H b = hGet h b)
    (hold : ∀ b, b ∉ addrs2 → b ∈ addrs → (∀ a ∈ addrs2, a ∉ addrs) ∨ hGet H b = none)
    (hsub : ∀ a ∈ addrs2, a ∈ addrs ∨ h.length ≤ a) :
    NoOutsideRefs H addrs2 := by
  intro b n hb hnotin a ha
  rcases hagree b hnotin with hnone | heq
  · rw [hnone] at hb
    cases hb
  · rw [heq] at hb
    rcases hsub a ha with hin | hge
    · by_cases hba : b ∈ addrs
      · rcases hold b hnotin hba with hnot | hnone
        · exact absurd hin (hnot a ha)
        · rw [heq] at hnone
          rw [hnone] at hb
          cases hb
      · exact hout b n hb hba a hin
    · have hl := hbd b n hb
      constructor
      · intro he
        have := hl.1 a he
        omega
      · intro he
        have := hl.2 a he
        omega

theorem LinksBounded_step {T : Type} (h H : List (Option (Node T)))
    (hbd : LinksBounded h) (hlen : h.length ≤ H.length)
    (hnodes : ∀ b n, hGet H b = some n → hGet h b = some n ∨
      ((∀ m, n.next = some m → m < H.length) ∧ (∀ m, n.prev = some m → m < H.length))) :
    LinksBounded H := by
  intro b n hb
  rcases hnodes b n hb with hold | hnew
  · have hl := hbd b n hold
    exact ⟨fun m hm => lt_of_lt_of_le (hl.1 m hm) hlen,
           fun m hm => lt_of_lt_of_le (hl.2 m hm) hlen⟩
  · exact hnew

theorem refsHeap_eq_zero {T : Type} :
    ∀ (h : List (Option (Node T))) (a : Nat),
      (∀ b n, hGet h b = some n → n.next ≠ some a ∧ n.prev ≠ some a) →
      refsHeap a h = 0 := by
  intro h
  induction h with
  | nil => intro a _; rfl
  | cons o t ih =>
      intro a hb
      cases o with
      | none => exact ih a (fun b n hn => hb (b + 1) n hn)
      | some n =>
          have h0 := hb 0 n rfl
          simp only [refsHeap, if_neg h0.1, if_neg h0.2]
          simpa using ih a (fun b m hm => hb (b + 1) m hm)

theorem DRep_push_front_A {T : Type} (s : DList T) (as : List (Nat × T)) (x : T)
    (hr : DRep s as true) : DRep (s.push_front x) ((s.heap.length, x) :: as) true := by
  obtain ⟨hseg, hheadA, _, htail, hnd, hout, hbd⟩ := hr
  have hhead := hheadA rfl
  cases as with
  | nil =>
      have hh : s.head = none := by simpa using hhead
      rw [push_front_eq_none s x hh]
      refine ⟨⟨rfl, ⟨x, none, none⟩, hGet_append_self s.heap _, rfl, rfl, rfl⟩,
        fun _ => rfl, ?_, by simp, by simp, ?_, ?_⟩
      · intro hb
        exact absurd hb (by decide)
      · refine NoOutsideRefs_step s.heap (s.heap ++ [some ⟨x, none, none⟩]) [] _ hout hbd ?_ ?_ ?_
        · intro b hb
          by_cases hbl : b < s.heap.length
          · exact Or.inr (hGet_append_left s.heap _ b hbl)
          · left
            cases hg : hGet (s.heap ++ [some ⟨x, none, none⟩]) b with
            | none => rfl
            | some n =>
                rcases hGet_append_cases s.heap _ b n hg with ⟨hlt, _⟩ | ⟨he, _⟩
                · omega
                · exact absurd he (by simpa using hb)
        · intro b _ hb
          cases hb
        · intro a ha
          simp only [List.map_cons, List.map_nil, List.mem_singleton] at ha
          exact Or.inr (le_of_eq ha.symm)
      · refine LinksBounded_step s.heap (s.heap ++ [some ⟨x, none, none⟩]) hbd (by simp) ?_
        intro b n hb
        rcases hGet_append_cases s.heap _ b n hb with ⟨_, hg⟩ | ⟨_, hg⟩
        · exact Or.inl hg
        · cases hg
          exact Or.inr ⟨fun m hm => (by cases hm), fun m hm => (by cases hm)⟩
  | cons q rest =>
      obtain ⟨a1, v1⟩ := q
      have hh : s.head = some a1 := by simpa using hhead
      have hmem := DSeg_mem_lt _ s.heap none _ none hseg
      obtain ⟨_, n1, hn1, hel1, hpv1, hrest⟩ := hseg
      have ha1lt : a1 < s.heap.length := hGet_lt_length s.heap a1 n1 hn1
      have hndc := List.nodup_cons.mp (by simpa only [List.map_cons] using hnd)
      have ha1rest : ∀ r ∈ rest, a1 ≠ r.1 := by
        intro r hr he
        exact hndc.1 (he ▸ List.mem_map_of_mem Prod.fst hr)
      have hfresh : ∀ r ∈ (a1, v1) :: rest, s.heap.length ≠ r.1 := by
        intro r hr he
        have := hmem r hr
        omega
      have hg0 : hGet (s.heap ++ [some ⟨x, none, none⟩]) a1 = some n1 := by
        rw [hGet_append_left _ _ _ ha1lt]
        exact hn1
      have e1 : setPrev (s.heap ++ [some ⟨x, none, none⟩]) a1 (some s.heap.length)
          = hSet (s.heap ++ [some ⟨x, none, none⟩]) a1
              (some { n1 with prev := some s.heap.length }) := by
        unfold setPrev
        rw [hg0]
      have hgL : hGet (hSet (s.heap ++ [some ⟨x, none, none⟩]) a1
          (some { n1 with prev := some s.heap.length })) s.heap.length
          = some ⟨x, none, none⟩ := by
        rw [hGet_hSet_ne _ _ _ _ (by omega)]
        exact hGet_append_self s.heap _
      have e2 : setNext (hSet (s.heap ++ [some ⟨x, none, none⟩]) a1
            (some { n1 with prev := some s.heap.length })) s.heap.length (some a1)
          = hSet (hSet (s.heap ++ [some ⟨x, none, none⟩]) a1
              (some { n1 with prev := some s.heap.length })) s.heap.length
              (some ⟨x, some a1, none⟩) := by
        unfold setNext
        rw [hgL]
      rw [push_front_eq_some s x a1 hh, e1, e2]
      have hlen1 : (hSet (s.heap ++ [some ⟨x, none, none⟩]) a1
          (some { n1 with prev := some s.heap.length })).length = s.heap.length + 1 := by
        rw [hSet_length]
        simp
      have hlen2 : (hSet (hSet (s.heap ++ [some ⟨x, none, none⟩]) a1
          (some { n1 with prev := some s.heap.length })) s.heap.length
          (some ⟨x, some a1, none⟩)).length = s.heap.length + 1 := by
        rw [hSet_length, hlen1]
      have hgetL2 : hGet (hSet (hSet (s.heap ++ [some ⟨x, none, none⟩]) a1
          (some { n1 with prev := some s.heap.length })) s.heap.length
          (some ⟨x, some a1, none⟩)) s.heap.length = some ⟨x, some a1, none⟩ := by
        apply hGet_hSet_self
        omega
      have hgeta1 : hGet (hSet (hSet (s.heap ++ [some ⟨x, none, none⟩]) a1
          (some { n1 with prev := some s.heap.length })) s.heap.length
          (some ⟨x, some a1, none⟩)) a1 = some { n1 with prev := some s.heap.length } := by
        rw [hGet_hSet_ne _ _ _ _ (by omega)]
        apply hGet_hSet_self
        simp only [List.length_append, List.length_cons, List.length_nil]
        omega
      have hrest2 : DSeg (hSet (hSet (s.heap ++ [some ⟨x, none, none⟩]) a1
          (some { n1 with prev := some s.heap.length })) s.heap.length
          (some ⟨x, some a1, none⟩)) (some a1) n1.next rest none := by
        apply DSeg_set_outside rest _ _ _ _ _ _ (fun r hr => hfresh r (List.mem_cons_of_mem _ hr))
        apply DSeg_set_outside rest _ _ _ _ _ _ ha1rest
        exact DSeg_append_heap rest s.heap _ _ _ _ hrest
      refine ⟨⟨rfl, ⟨x, some a1, none⟩, hgetL2, rfl, rfl,
          rfl, { n1 with prev := some s.heap.length }, hgeta1, hel1, rfl, hrest2⟩,
        fun _ => rfl, ?_, ?_, ?_, ?_, ?_⟩
      · intro hb
        exact absurd hb (by decide)
      · rw [htail]
        simp only [List.map_cons, List.getLast?_cons_cons]
      · rw [List.map_cons]
        refine List.nodup_cons.mpr ⟨?_, hnd⟩
        intro hm
        obtain ⟨r, hr, hre⟩ := List.mem_map.mp hm
        exact hfresh r hr hre.symm
      · refine NoOutsideRefs_step s.heap
          (hSet (hSet (s.heap ++ [some ⟨x, none, none⟩]) a1
            (some { n1 with prev := some s.heap.length })) s.heap.length
            (some ⟨x, some a1, none⟩))
          (((a1, v1) :: rest).map Prod.fst) _ hout hbd ?_ ?_ ?_
        · intro b hb
          simp only [List.map_cons, List.mem_cons, not_or] at hb
          right
          rw [hGet_hSet_ne _ _ _ _ hb.1, hGet_hSet_ne _ _ _ _ hb.2.1]
          by_cases hbl : b < s.heap.length
          · exact hGet_append_left s.heap _ b hbl
          · cases hg : hGet s.heap b with
            | none =>
                cases hg2 : hGet (s.heap ++ [some ⟨x, none, none⟩]) b with
                | none => rfl
                | some n =>
                    rcases hGet_append_cases s.heap _ b n hg2 with ⟨hlt, _⟩ | ⟨he, _⟩
                    · omega
                    · exact absurd he hb.1
            | some n =>
                have := hGet_lt_length s.heap b n hg
                omega
        · intro b hb2 hbin
          exfalso
          apply hb2
          rw [List.map_cons]
          exact List.mem_cons_of_mem _ hbin
        · intro a ha
          simp only [List.map_cons, List.mem_cons] at ha
          rcases ha with rfl | ha
          · exact Or.inr (le_refl _)
          · left
            simp only [List.map_cons, List.mem_cons]
            exact ha
      · refine LinksBounded_step s.heap
          (hSet (hSet (s.heap ++ [some ⟨x, none, none⟩]) a1
            (some { n1 with prev := some s.heap.length })) s.heap.length
            (some ⟨x, some a1, none⟩))
          hbd (by rw [hlen2]; omega) ?_
        intro b n hb
        by_cases hbL : b = s.heap.length
        · subst hbL
          rw [hgetL2] at hb
          cases hb
          refine Or.inr ⟨fun m hm => ?_, fun m hm => (by cases hm)⟩
          cases hm
          rw [hlen2]
          omega
        · by_cases hba1 : b = a1
          · subst hba1
            rw [hgeta1] at hb
            cases hb
            refine Or.inr ⟨fun m hm => ?_, fun m hm => ?_⟩
            · have := (hbd _ n1 hn1).1 m hm
              rw [hlen2]
              omega
            · cases hm
              rw [hlen2]
              omega
          · rw [hGet_hSet_ne _ _ _ _ hbL, hGet_hSet_ne _ _ _ _ hba1] at hb
            rcases hGet_append_cases s.heap _ b n hb with ⟨_, hg⟩ | ⟨he, _⟩
            · exact Or.inl hg
            · exact absurd he hbL

theorem DRep_push_front_B {T : Type} (s : DList T) (as : List (Nat × T)) (x : T)
    (hr : DRep s as false) : DRep (s.push_front x) [(s.heap.length, x)] true := by
  obtain ⟨hseg, _, hheadB, htail, hnd, hout, hbd⟩ := hr
  have hh : s.head = none := (hheadB rfl).1
  have hmem := DSeg_mem_lt _ s.heap none _ none hseg
  rw [push_front_eq_none s x hh]
  refine ⟨⟨rfl, ⟨x, none, none⟩, hGet_append_self s.heap _, rfl, rfl, rfl⟩,
    fun _ => rfl, ?_, by simp, by simp, ?_, ?_⟩
  · intro hb
    exact absurd hb (by decide)
  · refine NoOutsideRefs_step s.heap (s.heap ++ [some ⟨x, none, none⟩])
      (as.map Prod.fst) _ hout hbd ?_ ?_ ?_
    · intro b hb
      by_cases hbl : b < s.heap.length
      · exact Or.inr (hGet_append_left s.heap _ b hbl)
      · left
        cases hg : hGet (s.heap ++ [some ⟨x, none, none⟩]) b with
        | none => rfl
        | some n =>
            rcases hGet_append_cases s.heap _ b n hg with ⟨hlt, _⟩ | ⟨he, _⟩
            · omega
            · exact absurd he (by simpa using hb)
    · intro b _ _
      left
      intro a ha hain
      simp only [List.map_cons, List.map_nil, List.mem_singleton] at ha
      obtain ⟨r, hr, hre⟩ := List.mem_map.mp hain
      have := hmem r hr
      omega
    · intro a ha
      simp only [List.map_cons, List.map_nil, List.mem_singleton] at ha
      exact Or.inr (le_of_eq ha.symm)
  · refine LinksBounded_step s.heap (s.heap ++ [some ⟨x, none, none⟩]) hbd (by simp) ?_
    intro b n hb
    rcases hGet_append_cases s.heap _ b n hb with ⟨_, hg⟩ | ⟨_, hg⟩
    · exact Or.inl hg
    · cases hg
      exact Or.inr ⟨fun m hm => (by cases hm), fun m hm => (by cases hm)⟩

theorem head?_map_append {T : Type} (as bs : List (Nat × T)) (h : as ≠ []) :
    ((as ++ bs).map Prod.fst).head? = (as.map Prod.fst).head? := by
  cases as with
  | nil => exact absurd rfl h
  | cons q r => rfl

theorem DRep_push_back_nonempty {T : Type} (s : DList T) (as : List (Nat × T)) (b : Bool)
    (x : T) (hr : DRep s as b) (hne : as ≠ []) :
    DRep (s.push_back x) (as ++ [(s.heap.length, x)]) b := by
  obtain ⟨hseg, hheadA, hheadB, htail, hnd, hout, hbd⟩ := hr
  have hmem := DSeg_mem_lt _ s.heap none _ none hseg
  rcases as.eq_nil_or_concat with rfl | ⟨bs, p, hbsp⟩
  · exact absurd rfl hne
  rw [List.concat_eq_append] at hbsp
  subst hbsp
  obtain ⟨t, yt⟩ := p
  have htl : ((bs ++ [(t, yt)]).map Prod.fst).getLast? = some t := by
    rw [List.map_append]
    simp only [List.map_cons, List.map_nil]
    exact List.getLast?_concat _
  have ht : s.tail = some t := by rw [htail, htl]
  obtain ⟨hbs, nt, hnt, helt, hprevt, hnxt⟩ := DSeg_snoc bs s.heap none _ none t yt hseg
  have htlt : t < s.heap.length := hGet_lt_length s.heap t nt hnt
  have htmem : t ∈ (bs ++ [(t, yt)]).map Prod.fst :=
    List.mem_map_of_mem Prod.fst (List.mem_append_right _ (List.mem_singleton.mpr rfl))
  have hndc := hnd
  have htnotbs : ∀ r ∈ bs, t ≠ r.1 := by
    intro r hr he
    rw [List.map_append, List.map_cons, List.map_nil] at hndc
    have hdisj := List.disjoint_of_nodup_append hndc
    exact hdisj (List.mem_map_of_mem Prod.fst hr) (List.mem_singleton.mpr he.symm)
  have hfresh : ∀ r ∈ bs ++ [(t, yt)], s.heap.length ≠ r.1 := by
    intro r hr he
    have := hmem r hr
    omega
  have hg0 : hGet (s.heap ++ [some ⟨x, none, none⟩]) t = some nt := by
    rw [hGet_append_left _ _ _ htlt]
    exact hnt
  have e1 : setNext (s.heap ++ [some ⟨x, none, none⟩]) t (some s.heap.length)
      = hSet (s.heap ++ [some ⟨x, none, none⟩]) t
          (some { nt with next := some s.heap.length }) := by
    unfold setNext
    rw [hg0]
  have hgL : hGet (hSet (s.heap ++ [some ⟨x, none, none⟩]) t
      (some { nt with next := some s.heap.length })) s.heap.length
      = some ⟨x, none, none⟩ := by
    rw [hGet_hSet_ne _ _ _ _ (by omega)]
    exact hGet_append_self s.heap _
  have e2 : setPrev (hSet (s.heap ++ [some ⟨x, none, none⟩]) t
        (some { nt with next := some s.heap.length })) s.heap.length (some t)
      = hSet (hSet (s.heap ++ [some ⟨x, none, none⟩]) t
          (some { nt with next := some s.heap.length })) s.heap.length
          (some ⟨x, none, some t⟩) := by
    unfold setPrev
    rw [hgL]
  rw [push_back_eq_some s x t ht, e1, e2]
  have hlen2 : (hSet (hSet (s.heap ++ [some ⟨x, none, none⟩]) t
      (some { nt with next := some s.heap.length })) s.heap.length
      (some ⟨x, none, some t⟩)).length = s.heap.length + 1 := by
    rw [hSet_length, hSet_length]
    simp
  have hgetL2 : hGet (hSet (hSet (s.heap ++ [some ⟨x, none, none⟩]) t
      (some { nt with next := some s.heap.length })) s.heap.length
      (some ⟨x, none, some t⟩)) s.heap.length = some ⟨x, none, some t⟩ := by
    apply hGet_hSet_self
    rw [hSet_length]
    simp
  have hgett : hGet (hSet (hSet (s.heap ++ [some ⟨x, none, none⟩]) t
      (some { nt with next := some s.heap.length })) s.heap.length
      (some ⟨x, none, some t⟩)) t = some { nt with next := some s.heap.length } := by
    rw [hGet_hSet_ne _ _ _ _ (by omega)]
    apply hGet_hSet_self
    simp only [List.length_append, List.length_cons, List.length_nil]
    omega
  have part1 : DSeg (hSet (hSet (s.heap ++ [some ⟨x, none, none⟩]) t
      (some { nt with next := some s.heap.length })) s.heap.length
      (some ⟨x, none, some t⟩)) none ((bs ++ [(t, yt)]).map Prod.fst).head? bs (some t) := by
    apply DSeg_set_outside bs _ _ _ _ _ _ (fun r hr => hfresh r (List.mem_append_left _ hr))
    apply DSeg_set_outside bs _ _ _ _ _ _ htnotbs
    exact DSeg_append_heap bs s.heap _ _ _ _ hbs
  have part2 : DSeg (hSet (hSet (s.heap ++ [some ⟨x, none, none⟩]) t
      (some { nt with next := some s.heap.length })) s.heap.length
      (some ⟨x, none, some t⟩)) (endPtr none bs) (some t)
      [(t, yt), (s.heap.length, x)] none :=
    ⟨rfl, { nt with next := some s.heap.length }, hgett, helt, hprevt,
      rfl, ⟨x, none, some t⟩, hgetL2, rfl, rfl, rfl⟩
  have hsegnew := DSeg_compose bs [(t, yt), (s.heap.length, x)] _ none _ (some t) none part1 part2
  refine ⟨?_, ?_, ?_, ?_, ?_, ?_, ?_⟩
  · rw [head?_map_append _ [(s.heap.length, x)] hne]
    simpa [List.append_assoc] using hsegnew
  · intro hbt
    rw [head?_map_append _ [(s.heap.length, x)] hne]
    exact hheadA hbt
  · intro hbf
    exact ⟨(hheadB hbf).1, by simp⟩
  · rw [List.map_append]
    simp only [List.map_cons, List.map_nil]
    rw [List.getLast?_concat]
  · rw [List.map_append]
    rw [List.nodup_append]
    refine ⟨hnd, List.nodup_singleton _, ?_⟩
    intro a ha hb2
    simp only [List.map_cons, List.map_nil, List.mem_singleton] at hb2
    obtain ⟨r, hr, hra⟩ := List.mem_map.mp ha
    have := hmem r hr
    omega
  · refine NoOutsideRefs_step s.heap
      (hSet (hSet (s.heap ++ [some ⟨x, none, none⟩]) t
        (some { nt with next := some s.heap.length })) s.heap.length
        (some ⟨x, none, some t⟩))
      ((bs ++ [(t, yt)]).map Prod.fst) _ hout hbd ?_ ?_ ?_
    · intro b2 hb2
      rw [List.map_append] at hb2
      simp only [List.mem_append, List.map_cons, List.map_nil, List.mem_singleton,
        not_or] at hb2
      have hb2t : b2 ≠ t := fun he => hb2.1 (he ▸ htmem)
      right
      rw [hGet_hSet_ne _ _ _ _ hb2.2, hGet_hSet_ne _ _ _ _ hb2t]
      by_cases hbl : b2 < s.heap.length
      · exact hGet_append_left s.heap _ b2 hbl
      · cases hg : hGet s.heap b2 with
        | none =>
            cases hg2 : hGet (s.heap ++ [some ⟨x, none, none⟩]) b2 with
            | none => rfl
            | some n =>
                rcases hGet_append_cases s.heap _ b2 n hg2 with ⟨hlt, _⟩ | ⟨he, _⟩
                · omega
                · exact absurd he hb2.2
        | some n =>
            have := hGet_lt_length s.heap b2 n hg
            omega
    · intro b2 hb2 hbin
      exfalso
      apply hb2
      rw [List.map_append]
      exact List.mem_append_left _ hbin
    · intro a ha
      rw [List.map_append] at ha
      rcases List.mem_append.mp ha with hin | hin
      · exact Or.inl hin
      · simp only [List.map_cons, List.map_nil, List.mem_singleton] at hin
        exact Or.inr (le_of_eq hin.symm)
  · refine LinksBounded_step s.heap
      (hSet (hSet (s.heap ++ [some ⟨x, none, none⟩]) t
        (some { nt with next := some s.heap.length })) s.heap.length
        (some ⟨x, none, some t⟩))
      hbd (by rw [hlen2]; omega) ?_
    intro b2 n hb2
    by_cases hbL : b2 = s.heap.length
    · subst hbL
      rw [hgetL2] at hb2
      cases hb2
      refine Or.inr ⟨fun m hm => (by cases hm), fun m hm => ?_⟩
      cases hm
      rw [hlen2]
      omega
    · by_cases hbt : b2 = t
      · subst hbt
        rw [hgett] at hb2
        cases hb2
        refine Or.inr ⟨fun m hm => ?_, fun m hm => ?_⟩
        · cases hm
          rw [hlen2]
          omega
        · have := (hbd _ nt hnt).2 m hm
          rw [hlen2]
          omega
      · rw [hGet_hSet_ne _ _ _ _ hbL, hGet_hSet_ne _ _ _ _ hbt] at hb2
        rcases hGet_append_cases s.heap _ b2 n hb2 with ⟨_, hg⟩ | ⟨he, _⟩
        · exact Or.inl hg
        · exact absurd he hbL

theorem mem_of_getLast?_eq {α : Type _} {l : List α} {a : α} (h : l.getLast? = some a) :
    a ∈ l := by
  obtain ⟨hne, heq⟩ := List.mem_getLast?_eq_getLast (show a ∈ l.getLast? by rw [h]; rfl)
  rw [heq]
  exact List.getLast_mem hne

theorem mem_of_head?_eq {α : Type _} {l : List α} {a : α} (h : l.head? = some a) :
    a ∈ l := by
  cases l with
  | nil => cases h
  | cons x t =>
      rw [List.head?_cons] at h
      cases h
      exact List.mem_cons_self _ _

theorem endPtr_concat {T : Type} (p : Option Nat) (cs : List (Nat × T)) (t : Nat) (y : T) :
    endPtr p (cs ++ [(t, y)]) = some t := by
  unfold endPtr
  rw [List.map_append]
  simp only [List.map_cons, List.map_nil]
  rw [List.getLast?_concat]

theorem pop_front_none {T : Type} (s : DList T) (hh : s.head = none) :
    s.pop_front = .ok (none, s) := by
  unfold DList.pop_front
  rw [hh]

theorem pop_back_none {T : Type} (s : DList T) (ht : s.tail = none) :
    s.pop_back = .ok (none, s) := by
  unfold DList.pop_back
  rw [ht]

theorem DRep_pop_front_cons {T : Type} (s : DList T) (a1 : Nat) (v1 : T)
    (rest : List (Nat × T)) (hr : DRep s ((a1, v1) :: rest) true) :
    ∃ s', s.pop_front = .ok (some v1, s') ∧ DRep s' rest true
      ∧ s'.heap.length = s.heap.length := by
  obtain ⟨hseg, hheadA, _, htail, hnd, hout, hbd⟩ := hr
  have hh : s.head = some a1 := by simpa using hheadA rfl
  have hmem := DSeg_mem_lt _ s.heap none _ none hseg
  obtain ⟨_, n1, hn1, hel1, hpv1, hrest⟩ := hseg
  have ha1lt : a1 < s.heap.length := hGet_lt_length s.heap a1 n1 hn1
  have hndc := List.nodup_cons.mp (by simpa only [List.map_cons] using hnd)
  have ha1rest : ∀ r ∈ rest, a1 ≠ r.1 := by
    intro r hr he
    exact hndc.1 (he ▸ List.mem_map_of_mem Prod.fst hr)
  have ha1in : a1 ∈ ((a1, v1) :: rest).map Prod.fst := by simp
  cases rest with
  | nil =>
      have hnx : n1.next = none := hrest
      have hz : refsIn a1
          (⟨none, none, hSet s.heap a1 (some { n1 with next := none })⟩ : DList T) = 0 := by
        have hrh : refsHeap a1 (hSet s.heap a1 (some { n1 with next := none })) = 0 := by
          apply refsHeap_eq_zero
          intro b n hb
          by_cases hba : b = a1
          · subst hba
            rw [hGet_hSet_self _ _ _ ha1lt] at hb
            cases hb
            exact ⟨fun he => (by cases he), fun he => (by rw [hpv1] at he; cases he)⟩
          · rw [hGet_hSet_ne _ _ _ _ hba] at hb
            exact hout b n hb (by simpa using hba) a1 ha1in
        simp [refsIn, hrh]
      have heq : s.pop_front = .ok (some v1,
          ⟨none, none, hSet (hSet s.heap a1 (some { n1 with next := none })) a1 none⟩) := by
        unfold DList.pop_front
        simp only [hh, hn1, hnx]
        rw [if_pos hz, hel1]
      refine ⟨_, heq, ⟨rfl, fun _ => rfl, ?_, rfl, by simp, ?_, ?_⟩, ?_⟩
      · intro hb
        exact absurd hb (by decide)
      · intro b n hb hnotin a ha
        simp at ha
      · refine LinksBounded_step s.heap _ hbd (le_of_eq ?_) ?_
        · rw [hSet_length, hSet_length]
        · intro b n hb
          by_cases hba : b = a1
          · subst hba
            rw [hGet_hSet_self] at hb
            · cases hb
            · rw [hSet_length]
              exact ha1lt
          · rw [hGet_hSet_ne _ _ _ _ hba, hGet_hSet_ne _ _ _ _ hba] at hb
            exact Or.inl hb
      · rw [hSet_length, hSet_length]
  | cons q rest2 =>
      obtain ⟨a2, v2⟩ := q
      have hnx : n1.next = some a2 := hrest.1
      obtain ⟨_, n2, hn2, hel2, hpv2, hrest2⟩ := hrest
      have ha2lt : a2 < s.heap.length := hGet_lt_length s.heap a2 n2 hn2
      have ha1a2 : a1 ≠ a2 := ha1rest (a2, v2) (List.mem_cons_self _ _)
      have hnd2 := List.nodup_cons.mp (by simpa only [List.map_cons] using hndc.2)
      have ha2rest2 : ∀ r ∈ rest2, a2 ≠ r.1 := by
        intro r hr he
        exact hnd2.1 (he ▸ List.mem_map_of_mem Prod.fst hr)
      have hg1 : hGet (hSet s.heap a1 (some { n1 with next := none })) a2 = some n2 := by
        rw [hGet_hSet_ne _ _ _ _ (fun he => ha1a2 he.symm)]
        exact hn2
      have e1 : setPrev (hSet s.heap a1 (some { n1 with next := none })) a2 none
          = hSet (hSet s.heap a1 (some { n1 with next := none })) a2
              (some { n2 with prev := none }) := by
        unfold setPrev
        rw [hg1]
      have hga2 : hGet (hSet (hSet s.heap a1 (some { n1 with next := none })) a2
          (some { n2 with prev := none })) a2 = some { n2 with prev := none } := by
        apply hGet_hSet_self
        rw [hSet_length]
        exact ha2lt
      have hga1 : hGet (hSet (hSet s.heap a1 (some { n1 with next := none })) a2
          (some { n2 with prev := none })) a1 = some { n1 with next := none } := by
        rw [hGet_hSet_ne _ _ _ _ ha1a2]
        exact hGet_hSet_self _ _ _ ha1lt
      have hrestH : DSeg (hSet (hSet s.heap a1 (some { n1 with next := none })) a2
          (some { n2 with prev := none })) none
          (((a2, v2) :: rest2).map Prod.fst).head? ((a2, v2) :: rest2) none := by
        refine ⟨rfl, { n2 with prev := none }, hga2, hel2, rfl, ?_⟩
        apply DSeg_set_outside rest2 _ _ _ _ _ _ ha2rest2
        apply DSeg_set_outside rest2 _ _ _ _ _ _
          (fun r hr => ha1rest r (List.mem_cons_of_mem _ hr))
        exact hrest2
      have htail' : s.tail = (((a2, v2) :: rest2).map Prod.fst).getLast? := by
        rw [htail]
        simp only [List.map_cons, List.getLast?_cons_cons]
      have htailne : s.tail ≠ some a1 := by
        intro he
        rw [htail'] at he
        exact hndc.1 (by simpa only [List.map_cons] using mem_of_getLast?_eq he)
      have hz : refsIn a1 (⟨some a2, s.tail,
          hSet (hSet s.heap a1 (some { n1 with next := none })) a2
            (some { n2 with prev := none })⟩ : DList T) = 0 := by
        have hrh : refsHeap a1 (hSet (hSet s.heap a1 (some { n1 with next := none })) a2
            (some { n2 with prev := none })) = 0 := by
          apply refsHeap_eq_zero
          intro b n hb
          by_cases hba1 : b = a1
          · subst hba1
            rw [hga1] at hb
            cases hb
            exact ⟨fun he => (by cases he), fun he => (by rw [hpv1] at he; cases he)⟩
          · by_cases hbin : b ∈ ((a2, v2) :: rest2).map Prod.fst
            · obtain ⟨r, hrm, hrb⟩ := List.mem_map.mp hbin
              obtain ⟨n', hn', hnx', hpv'⟩ :=
                DSeg_links _ _ none _ none hrestH r hrm
              rw [hrb] at hn'
              rw [hn'] at hb
              cases hb
              constructor
              · intro he
                rcases hnx' with hne | ⟨r2, hr2, hre⟩
                · rw [hne] at he
                  cases he
                · rw [hre] at he
                  cases he
                  exact ha1rest r2 hr2 rfl
              · intro he
                rcases hpv' with hne | ⟨r2, hr2, hre⟩
                · rw [hne] at he
                  cases he
                · rw [hre] at he
                  cases he
                  exact ha1rest r2 hr2 rfl
            · have hba2 : b ≠ a2 := fun he => hbin (by simp [he])
              rw [hGet_hSet_ne _ _ _ _ hba2, hGet_hSet_ne _ _ _ _ hba1] at hb
              refine hout b n hb ?_ a1 ha1in
              simp only [List.map_cons, List.mem_cons, not_or]
              refine ⟨hba1, ?_⟩
              simpa only [List.map_cons, List.mem_cons, not_or] using hbin
        have hhne : (some a2 : Option Nat) ≠ some a1 := fun he => ha1a2 (by cases he; rfl)
        simp [refsIn, hrh, hhne, htailne]
      have heq : s.pop_front = .ok (some v1, ⟨some a2, s.tail,
          hSet (hSet (hSet s.heap a1 (some { n1 with next := none })) a2
            (some { n2 with prev := none })) a1 none⟩) := by
        unfold DList.pop_front
        simp only [hh, hn1, hnx, e1]
        rw [if_pos hz, hel1]
      refine ⟨_, heq, ⟨?_, fun _ => rfl, ?_, htail', hndc.2, ?_, ?_⟩, ?_⟩
      · exact DSeg_set_outside _ _ _ _ _ _ _ ha1rest hrestH
      · intro hb
        exact absurd hb (by decide)
      · refine NoOutsideRefs_step s.heap _ (((a1, v1) :: (a2, v2) :: rest2).map Prod.fst)
          _ hout hbd ?_ ?_ ?_
        · intro b hb
          by_cases hba1 : b = a1
          · subst hba1
            left
            apply hGet_hSet_self
            rw [hSet_length, hSet_length]
            exact ha1lt
          · have hba2 : b ≠ a2 := fun he => hb (by simp [he])
            right
            rw [hGet_hSet_ne _ _ _ _ hba1, hGet_hSet_ne _ _ _ _ hba2,
              hGet_hSet_ne _ _ _ _ hba1]
        · intro b hb2 hbin
          right
          simp only [List.map_cons, List.mem_cons] at hbin
          rcases hbin with rfl | hbin
          · apply hGet_hSet_self
            rw [hSet_length, hSet_length]
            exact ha1lt
          · exact absurd (by simpa only [List.map_cons, List.mem_cons] using hbin) hb2
        · intro a ha
          left
          simp only [List.map_cons, List.mem_cons] at ha ⊢
          exact Or.inr ha
      · refine LinksBounded_step s.heap _ hbd (le_of_eq ?_) ?_
        · rw [hSet_length, hSet_length, hSet_length]
        · intro b n hb
          by_cases hba1 : b = a1
          · subst hba1
            rw [hGet_hSet_self] at hb
            · cases hb
            · rw [hSet_length, hSet_length]
              exact ha1lt
          · by_cases hba2 : b = a2
            · subst hba2
              rw [hGet_hSet_ne _ _ _ _ hba1, hga2] at hb
              cases hb
              refine Or.inr ⟨fun m hm => ?_, fun m hm => (by cases hm)⟩
              have := (hbd _ n2 hn2).1 m hm
              rw [hSet_length, hSet_length, hSet_length]
              omega
            · rw [hGet_hSet_ne _ _ _ _ hba1, hGet_hSet_ne _ _ _ _ hba2,
                hGet_hSet_ne _ _ _ _ hba1] at hb
              exact Or.inl hb
      · rw [hSet_length, hSet_length, hSet_length]

theorem DRep_pop_back_snoc {T : Type} (s : DList T) (bs : List (Nat × T)) (t : Nat)
    (xt : T) (b : Bool) (hr : DRep s (bs ++ [(t, xt)]) b) :
    ∃ s', s.pop_back = .ok (some xt, s') ∧ DRep s' bs (bs.isEmpty || b)
      ∧ s'.heap.length = s.heap.length := by
  obtain ⟨hseg, hheadA, hheadB, htail, hnd, hout, hbd⟩ := hr
  have hmem := DSeg_mem_lt _ s.heap none _ none hseg
  have htl : ((bs ++ [(t, xt)]).map Prod.fst).getLast? = some t := by
    rw [List.map_append]
    simp only [List.map_cons, List.map_nil]
    exact List.getLast?_concat _
  have ht : s.tail = some t := by rw [htail, htl]
  obtain ⟨hbs, nt, hnt, helt, hprevt, hnxt⟩ := DSeg_snoc bs s.heap none _ none t xt hseg
  have htlt : t < s.heap.length := hGet_lt_length s.heap t nt hnt
  have hnd' : (bs.map Prod.fst ++ [t]).Nodup := by
    simpa only [List.map_append, List.map_cons, List.map_nil] using hnd
  have hdisj := List.disjoint_of_nodup_append hnd'
  have htnotbsm : t ∉ bs.map Prod.fst := fun hm => hdisj hm (List.mem_singleton.mpr rfl)
  have htnotbs : ∀ r ∈ bs, t ≠ r.1 := by
    intro r hr he
    exact htnotbsm (he ▸ List.mem_map_of_mem Prod.fst hr)
  have hbsnodup : (bs.map Prod.fst).Nodup := hnd'.of_append_left
  have htin : t ∈ ((bs ++ [(t, xt)]).map Prod.fst) := by
    rw [List.map_append]
    exact List.mem_append_right _ (by simp)
  rcases bs.eq_nil_or_concat with rfl | ⟨cs, p2, hcs⟩
  · -- popping the sole node: both handles are cleared in the same operation
    have hpv : nt.prev = none := by rw [hprevt]; rfl
    have hz : refsIn t
        (⟨none, none, hSet s.heap t (some { nt with prev := none })⟩ : DList T) = 0 := by
      have hrh : refsHeap t (hSet s.heap t (some { nt with prev := none })) = 0 := by
        apply refsHeap_eq_zero
        intro b2 n hb2
        by_cases hbt : b2 = t
        · subst hbt
          rw [hGet_hSet_self _ _ _ htlt] at hb2
          cases hb2
          exact ⟨fun he => (by rw [hnxt] at he; cases he), fun he => (by cases he)⟩
        · rw [hGet_hSet_ne _ _ _ _ hbt] at hb2
          exact hout b2 n hb2 (by simpa using hbt) t htin
      simp [refsIn, hrh]
    have heq : s.pop_back = .ok (some xt,
        ⟨none, none, hSet (hSet s.heap t (some { nt with prev := none })) t none⟩) := by
      unfold DList.pop_back
      simp only [ht, hnt, hpv]
      rw [if_pos hz, helt]
    rw [show (([] : List (Nat × T)).isEmpty || b) = true from by rfl]
    refine ⟨_, heq, ⟨rfl, fun _ => rfl, ?_, rfl, by simp, ?_, ?_⟩, ?_⟩
    · intro hb
      exact absurd hb (by decide)
    · intro b2 n hb2 hnotin a ha
      simp at ha
    · refine LinksBounded_step s.heap _ hbd (le_of_eq ?_) ?_
      · rw [hSet_length, hSet_length]
      · intro b2 n hb2
        by_cases hbt : b2 = t
        · subst hbt
          rw [hGet_hSet_self] at hb2
          · cases hb2
          · rw [hSet_length]
            exact htlt
        · rw [hGet_hSet_ne _ _ _ _ hbt, hGet_hSet_ne _ _ _ _ hbt] at hb2
          exact Or.inl hb2
    · rw [hSet_length, hSet_length]
  · rw [List.concat_eq_append] at hcs
    subst hcs
    obtain ⟨t2, y2⟩ := p2
    have hpv : nt.prev = some t2 := by rw [hprevt, endPtr_concat]
    obtain ⟨hcs2, nt2, hnt2, hel2, hprev2, hnxt2⟩ :=
      DSeg_snoc cs s.heap none _ (some t) t2 y2 hbs
    have ht2lt : t2 < s.heap.length := hGet_lt_length s.heap t2 nt2 hnt2
    have ht2mem : t2 ∈ (cs ++ [(t2, y2)]).map Prod.fst :=
      List.mem_map_of_mem Prod.fst (List.mem_append_right _ (List.mem_singleton.mpr rfl))
    have ht2net : t2 ≠ t := fun he => htnotbsm (he ▸ ht2mem)
    have hnd2' : (cs.map Prod.fst ++ [t2]).Nodup := by
      simpa only [List.map_append, List.map_cons, List.map_nil] using hbsnodup
    have hdisj2 := List.disjoint_of_nodup_append hnd2'
    have ht2notcs : ∀ r ∈ cs, t2 ≠ r.1 := by
      intro r hr he
      exact hdisj2 (he ▸ List.mem_map_of_mem Prod.fst hr) (List.mem_singleton.mpr rfl)
    have hg1 : hGet (hSet s.heap t (some { nt with prev := none })) t2 = some nt2 := by
      rw [hGet_hSet_ne _ _ _ _ ht2net]
      exact hnt2
    have e1 : setNext (hSet s.heap t (some { nt with prev := none })) t2 none
        = hSet (hSet s.heap t (some { nt with prev := none })) t2
            (some { nt2 with next := none }) := by
      unfold setNext
      rw [hg1]
    have hga2 : hGet (hSet (hSet s.heap t (some { nt with prev := none })) t2
        (some { nt2 with next := none })) t2 = some { nt2 with next := none } := by
      apply hGet_hSet_self
      rw [hSet_length]
      exact ht2lt
    have hgat : hGet (hSet (hSet s.heap t (some { nt with prev := none })) t2
        (some { nt2 with next := none })) t = some { nt with prev := none } := by
      rw [hGet_hSet_ne _ _ _ _ (fun he => ht2net he.symm)]
      exact hGet_hSet_self _ _ _ htlt
    have hc0 : (((cs ++ [(t2, y2)]) ++ [(t, xt)]).map Prod.fst).head?
        = ((cs ++ [(t2, y2)]).map Prod.fst).head? :=
      head?_map_append (cs ++ [(t2, y2)]) [(t, xt)] (by simp)
    rw [hc0] at hcs2
    have part1 : DSeg (hSet (hSet s.heap t (some { nt with prev := none })) t2
        (some { nt2 with next := none })) none ((cs ++ [(t2, y2)]).map Prod.fst).head?
        cs (some t2) := by
      apply DSeg_set_outside cs _ _ _ _ _ _ ht2notcs
      apply DSeg_set_outside cs _ _ _ _ _ _
        (fun r hr => htnotbs r (List.mem_append_left _ hr))
      exact hcs2
    have part2 : DSeg (hSet (hSet s.heap t (some { nt with prev := none })) t2
        (some { nt2 with next := none })) (endPtr none cs) (some t2) [(t2, y2)] none :=
      ⟨rfl, { nt2 with next := none }, hga2, hel2, hprev2, rfl⟩
    have hbsH := DSeg_compose cs [(t2, y2)] _ none _ (some t2) none part1 part2
    have hheadnet : s.head ≠ some t := by
      intro he
      cases b with
      | true =>
          have hh := hheadA rfl
          rw [head?_map_append (cs ++ [(t2, y2)]) [(t, xt)]
            (show cs ++ [(t2, y2)] ≠ [] by simp)] at hh
          rw [he] at hh
          exact htnotbsm (mem_of_head?_eq hh.symm)
      | false =>
          rw [(hheadB rfl).1] at he
          cases he
    have hz : refsIn t (⟨s.head, some t2,
        hSet (hSet s.heap t (some { nt with prev := none })) t2
          (some { nt2 with next := none })⟩ : DList T) = 0 := by
      have hrh : refsHeap t (hSet (hSet s.heap t (some { nt with prev := none })) t2
          (some { nt2 with next := none })) = 0 := by
        apply refsHeap_eq_zero
        intro b2 n hb2
        by_cases hbt : b2 = t
        · subst hbt
          rw [hgat] at hb2
          cases hb2
          exact ⟨fun he => (by rw [hnxt] at he; cases he), fun he => (by cases he)⟩
        · by_cases hbin : b2 ∈ (cs ++ [(t2, y2)]).map Prod.fst
          · obtain ⟨r, hrm, hrb⟩ := List.mem_map.mp hbin
            obtain ⟨n', hn', hnx', hpv'⟩ := DSeg_links _ _ none _ none hbsH r hrm
            rw [hrb] at hn'
            rw [hn'] at hb2
            cases hb2
            constructor
            · intro he
              rcases hnx' with hne | ⟨r2, hr2, hre⟩
              · rw [hne] at he
                cases he
              · rw [hre] at he
                cases he
                exact htnotbs r2 hr2 rfl
            · intro he
              rcases hpv' with hne | ⟨r2, hr2, hre⟩
              · rw [hne] at he
                cases he
              · rw [hre] at he
                cases he
                exact htnotbs r2 hr2 rfl
          · have hbt2 : b2 ≠ t2 := fun he => hbin (he ▸ ht2mem)
            rw [hGet_hSet_ne _ _ _ _ hbt2, hGet_hSet_ne _ _ _ _ hbt] at hb2
            refine hout b2 n hb2 ?_ t htin
            rw [List.map_append]
            simp only [List.mem_append, List.map_cons, List.map_nil,
              List.mem_singleton, not_or]
            exact ⟨hbin, hbt⟩
      have htailne2 : (some t2 : Option Nat) ≠ some t := fun he => ht2net (by cases he; rfl)
      simp [refsIn, hrh, hheadnet, htailne2]
    have heq : s.pop_back = .ok (some xt, ⟨s.head, some t2,
        hSet (hSet (hSet s.heap t (some { nt with prev := none })) t2
          (some { nt2 with next := none })) t none⟩) := by
      unfold DList.pop_back
      simp only [ht, hnt, hpv, e1]
      rw [if_pos hz, helt]
    rw [show ((cs ++ [(t2, y2)]).isEmpty || b) = b from by
      cases hcs0 : cs <;> simp]
    refine ⟨_, heq, ⟨?_, ?_, ?_, ?_, hbsnodup, ?_, ?_⟩, ?_⟩
    · exact DSeg_set_outside _ _ _ _ _ _ _ htnotbs hbsH
    · intro hbt
      rw [head?_map_append _ _ (show cs ++ [(t2, y2)] ≠ [] by simp)] at hheadA
      exact hheadA hbt
    · intro hbf
      exact ⟨(hheadB hbf).1, by simp⟩
    · rw [List.map_append]
      simp only [List.map_cons, List.map_nil]
      rw [List.getLast?_concat]
    · refine NoOutsideRefs_step s.heap _ (((cs ++ [(t2, y2)]) ++ [(t, xt)]).map Prod.fst)
        _ hout hbd ?_ ?_ ?_
      · intro b2 hb2
        by_cases hbt : b2 = t
        · subst hbt
          left
          apply hGet_hSet_self
          rw [hSet_length, hSet_length]
          exact htlt
        · have hbt2 : b2 ≠ t2 := fun he => hb2 (he ▸ ht2mem)
          right
          rw [hGet_hSet_ne _ _ _ _ hbt, hGet_hSet_ne _ _ _ _ hbt2,
            hGet_hSet_ne _ _ _ _ hbt]
      · intro b2 hb2 hbin
        right
        rw [List.map_append] at hbin
        rcases List.mem_append.mp hbin with hin | hin
        · exact absurd hin hb2
        · simp only [List.map_cons, List.map_nil, List.mem_singleton] at hin
          subst hin
          apply hGet_hSet_self
          rw [hSet_length, hSet_length]
          exact htlt
      · intro a ha
        left
        rw [List.map_append]
        exact List.mem_append_left _ ha
    · refine LinksBounded_step s.heap _ hbd (le_of_eq ?_) ?_
      · rw [hSet_length, hSet_length, hSet_length]
      · intro b2 n hb2
        by_cases hbt : b2 = t
        · subst hbt
          rw [hGet_hSet_self] at hb2
          · cases hb2
          · rw [hSet_length, hSet_length]
            exact htlt
        · by_cases hbt2 : b2 = t2
          · subst hbt2
            rw [hGet_hSet_ne _ _ _ _ hbt, hga2] at hb2
            cases hb2
            refine Or.inr ⟨fun m hm => (by cases hm), fun m hm => ?_⟩
            have := (hbd _ nt2 hnt2).2 m hm
            rw [hSet_length, hSet_length, hSet_length]
            omega
          · rw [hGet_hSet_ne _ _ _ _ hbt, hGet_hSet_ne _ _ _ _ hbt2,
              hGet_hSet_ne _ _ _ _ hbt] at hb2
            exact Or.inl hb2
    · rw [hSet_length, hSet_length, hSet_length]

theorem DRep_push_back_empty {T : Type} (s : DList T) (b : Bool) (x : T)
    (hr : DRep s [] b) : DRep (s.push_back x) [(s.heap.length, x)] false := by
  obtain ⟨hseg, hheadA, hheadB, htail, hnd, hout, hbd⟩ := hr
  have hb : b = true := by
    cases b with
    | true => rfl
    | false => exact ((hheadB rfl).2 rfl).elim
  subst hb
  have hh : s.head = none := by simpa using hheadA rfl
  have ht : s.tail = none := by simpa using htail
  rw [push_back_eq_none s x ht]
  refine ⟨⟨rfl, ⟨x, none, none⟩, hGet_append_self s.heap _, rfl, rfl, rfl⟩,
    ?_, ?_, by simp, by simp, ?_, ?_⟩
  · intro hb2
    exact absurd hb2 (by decide)
  · intro _
    exact ⟨hh, by simp⟩
  · refine NoOutsideRefs_step s.heap (s.heap ++ [some ⟨x, none, none⟩]) [] _ hout hbd ?_ ?_ ?_
    · intro b2 hb2
      by_cases hbl : b2 < s.heap.length
      · exact Or.inr (hGet_append_left s.heap _ b2 hbl)
      · left
        cases hg : hGet (s.heap ++ [some ⟨x, none, none⟩]) b2 with
        | none => rfl
        | some n =>
            rcases hGet_append_cases s.heap _ b2 n hg with ⟨hlt, _⟩ | ⟨he, _⟩
            · omega
            · exact absurd he (by simpa using hb2)
    · intro b2 _ hb2
      cases hb2
    · intro a ha
      simp only [List.map_cons, List.map_nil, List.mem_singleton] at ha
      exact Or.inr (le_of_eq ha.symm)
  · refine LinksBounded_step s.heap (s.heap ++ [some ⟨x, none, none⟩]) hbd (by simp) ?_
    intro b2 n hb2
    rcases hGet_append_cases s.heap _ b2 n hb2 with ⟨_, hg⟩ | ⟨_, hg⟩
    · exact Or.inl hg
    · cases hg
      exact Or.inr ⟨fun m hm => (by cases hm), fun m hm => (by cases hm)⟩


theorem DRep_new {T : Type} : DRep (DList.new : DList T) [] true := by
  refine ⟨rfl, fun _ => rfl, ?_, rfl, by simp, ?_, ?_⟩
  · intro hb
    exact absurd hb (by decide)
  · intro b n hb
    cases b <;> cases hb
  · intro b n hb
    cases b <;> cases hb

theorem DRep_push_front_any {T : Type} (s : DList T) (as : List (Nat × T)) (b : Bool)
    (x : T) (hr : DRep s as b) : ∃ as2, DRep (s.push_front x) as2 true := by
  cases b with
  | true => exact ⟨_, DRep_push_front_A s as x hr⟩
  | false => exact ⟨_, DRep_push_front_B s as x hr⟩

theorem DRep_push_back_any {T : Type} (s : DList T) (as : List (Nat × T)) (b : Bool)
    (x : T) (hr : DRep s as b) : ∃ as2 b2, DRep (s.push_back x) as2 b2 := by
  cases as with
  | nil => exact ⟨_, _, DRep_push_back_empty s b x hr⟩
  | cons q rest => exact ⟨_, _, DRep_push_back_nonempty s _ b x hr (by simp)⟩

theorem DRep_head_none {T : Type} (s : DList T) (as : List (Nat × T)) (b : Bool)
    (hr : DRep s as b) (hcase : b = false ∨ as = []) : s.head = none := by
  obtain ⟨_, hheadA, hheadB, _⟩ := hr
  cases b with
  | true =>
      rcases hcase with hb | ha
      · cases hb
      · subst ha
        simpa using hheadA rfl
  | false => exact (hheadB rfl).1

theorem DRep_pop_front_any {T : Type} (s : DList T) (as : List (Nat × T)) (b : Bool)
    (hr : DRep s as b) :
    ∃ r s2 as2 b2, s.pop_front = .ok (r, s2) ∧ DRep s2 as2 b2 := by
  cases b with
  | false =>
      exact ⟨none, s, as, false, pop_front_none s (DRep_head_none s as false hr (Or.inl rfl)),
        hr⟩
  | true =>
      cases as with
      | nil =>
          exact ⟨none, s, [], true, pop_front_none s (DRep_head_none s [] true hr (Or.inr rfl)),
            hr⟩
      | cons q rest =>
          obtain ⟨a1, v1⟩ := q
          obtain ⟨s2, heq, hrep, _⟩ := DRep_pop_front_cons s a1 v1 rest hr
          exact ⟨some v1, s2, rest, true, heq, hrep⟩

theorem DRep_pop_back_any {T : Type} (s : DList T) (as : List (Nat × T)) (b : Bool)
    (hr : DRep s as b) :
    ∃ r s2 as2 b2, s.pop_back = .ok (r, s2) ∧ DRep s2 as2 b2 := by
  rcases as.eq_nil_or_concat with rfl | ⟨bs, p, hbsp⟩
  · have ht : s.tail = none := by
      obtain ⟨_, _, _, htail, _⟩ := hr
      simpa using htail
    exact ⟨none, s, [], b, pop_back_none s ht, hr⟩
  · rw [List.concat_eq_append] at hbsp
    subst hbsp
    obtain ⟨t, xt⟩ := p
    obtain ⟨s2, heq, hrep, _⟩ := DRep_pop_back_snoc s bs t xt b hr
    exact ⟨some xt, s2, bs, _, heq, hrep⟩

theorem runD_ok {T : Type} :
    ∀ (ops : List (DOp T)) (s : DList T) (as : List (Nat × T)) (b : Bool),
      DRep s as b → ∃ res, runD ops s = .ok res := by
  intro ops
  induction ops with
  | nil => intro s as b _; exact ⟨(s, []), rfl⟩
  | cons op rest ih =>
      intro s as b hr
      cases op with
      | push_front x =>
          obtain ⟨as2, hrep⟩ := DRep_push_front_any s as b x hr
          obtain ⟨res, hres⟩ := ih (s.push_front x) as2 true hrep
          exact ⟨res, by simpa [runD] using hres⟩
      | push_back x =>
          obtain ⟨as2, b2, hrep⟩ := DRep_push_back_any s as b x hr
          obtain ⟨res, hres⟩ := ih (s.push_back x) as2 b2 hrep
          exact ⟨res, by simpa [runD] using hres⟩
      | pop_front =>
          obtain ⟨r, s2, as2, b2, heq, hrep⟩ := DRep_pop_front_any s as b hr
          obtain ⟨⟨sf, tr⟩, hres⟩ := ih s2 as2 b2 hrep
          refine ⟨(sf, r :: tr), ?_⟩
          simp only [runD, heq, hres]
      | pop_back =>
          obtain ⟨r, s2, as2, b2, heq, hrep⟩ := DRep_pop_back_any s as b hr
          obtain ⟨⟨sf, tr⟩, hres⟩ := ih s2 as2 b2 hrep
          refine ⟨(sf, r :: tr), ?_⟩
          simp only [runD, heq, hres]

theorem runD_rep {T : Type} :
    ∀ (ops : List (DOp T)) (s : DList T) (as : List (Nat × T)) (b : Bool),
      DRep s as b → ∀ sf tr, runD ops s = .ok (sf, tr) →
      ∃ asf bf, DRep sf asf bf := by
  intro ops
  induction ops with
  | nil =>
      intro s as b hr sf tr hrun
      cases hrun
      exact ⟨as, b, hr⟩
  | cons op rest ih =>
      intro s as b hr sf tr hrun
      cases op with
      | push_front x =>
          obtain ⟨as2, hrep⟩ := DRep_push_front_any s as b x hr
          exact ih (s.push_front x) as2 true hrep sf tr (by simpa [runD] using hrun)
      | push_back x =>
          obtain ⟨as2, b2, hrep⟩ := DRep_push_back_any s as b x hr
          exact ih (s.push_back x) as2 b2 hrep sf tr (by simpa [runD] using hrun)
      | pop_front =>
          obtain ⟨r, s2, as2, b2, heq, hrep⟩ := DRep_pop_front_any s as b hr
          simp only [runD, heq] at hrun
          cases hres : runD rest s2 with
          | error e =>
              simp only [hres] at hrun
              cases hrun
          | ok res =>
              obtain ⟨sf2, tr2⟩ := res
              simp only [hres, Except.ok.injEq, Prod.mk.injEq] at hrun
              obtain ⟨rfl, rfl⟩ := hrun
              exact ih s2 as2 b2 hrep _ _ hres
      | pop_back =>
          obtain ⟨r, s2, as2, b2, heq, hrep⟩ := DRep_pop_back_any s as b hr
          simp only [runD, heq] at hrun
          cases hres : runD rest s2 with
          | error e =>
              simp only [hres] at hrun
              cases hrun
          | ok res =>
              obtain ⟨sf2, tr2⟩ := res
              simp only [hres, Except.ok.injEq, Prod.mk.injEq] at hrun
              obtain ⟨rfl, rfl⟩ := hrun
              exact ih s2 as2 b2 hrep _ _ hres

theorem iterRun_empty {T : Type} :
    ∀ (steps : List IterDir) (s : DList T), s.head = none → s.tail = none →
      iterRun steps s = .ok (steps.map (fun d => (d, none)), s) := by
  intro steps
  induction steps with
  | nil => intro s _ _; rfl
  | cons d ds ih =>
      intro s hh ht
      cases d with
      | front =>
          simp only [iterRun, iterStep, pop_front_none s hh, ih s hh ht, List.map_cons]
      | back =>
          simp only [iterRun, iterStep, pop_back_none s ht, ih s hh ht, List.map_cons]

theorem iterRun_spec {T : Type} :
    ∀ (steps : List IterDir) (s : DList T) (as : List (Nat × T)) (b : Bool),
      DRep s as b →
      ∃ tr s2, iterRun steps s = .ok (tr, s2) ∧
        ∃ as2 b2, DRep s2 as2 b2 ∧
          as.map Prod.snd = frontYields tr ++ as2.map Prod.snd ++ (backYields tr).reverse ∧
          (s2.tail = none → as2 = [] ∧ s2.head = none) := by
  intro steps
  induction steps with
  | nil =>
      intro s as b hr
      refine ⟨[], s, rfl, as, b, hr, by simp [frontYields, backYields], ?_⟩
      intro ht
      obtain ⟨hseg1, hheadA1, hheadB1, htail1, hnd1, hout1, hbd1⟩ := hr
      have htail2 := htail1
      rw [ht] at htail2
      have hasnil : as = [] := by
        rcases List.eq_nil_or_concat as with rfl | ⟨cs, p, hcs⟩
        · rfl
        · rw [List.concat_eq_append] at hcs
          subst hcs
          rw [List.map_append] at htail2
          simp [List.getLast?_concat] at htail2
      subst hasnil
      exact ⟨rfl, DRep_head_none s [] b
        ⟨hseg1, hheadA1, hheadB1, htail1, hnd1, hout1, hbd1⟩ (Or.inr rfl)⟩
  | cons d ds ih =>
      intro s as b hr
      cases d with
      | front =>
          cases b with
          | false =>
              have hh := DRep_head_none s as false hr (Or.inl rfl)
              obtain ⟨tr, s2, hrun, as2, b2, hrep, habs, hend⟩ := ih s as false hr
              refine ⟨(IterDir.front, none) :: tr, s2, ?_, as2, b2, hrep, ?_, hend⟩
              · simp only [iterRun, iterStep, pop_front_none s hh, hrun]
              · simpa [frontYields, backYields] using habs
          | true =>
              cases as with
              | nil =>
                  have hh := DRep_head_none s [] true hr (Or.inr rfl)
                  obtain ⟨tr, s2, hrun, as2, b2, hrep, habs, hend⟩ := ih s [] true hr
                  refine ⟨(IterDir.front, none) :: tr, s2, ?_, as2, b2, hrep, ?_, hend⟩
                  · simp only [iterRun, iterStep, pop_front_none s hh, hrun]
                  · simpa [frontYields, backYields] using habs
              | cons q rest =>
                  obtain ⟨a1, v1⟩ := q
                  obtain ⟨s1, heq, hrep1, _⟩ := DRep_pop_front_cons s a1 v1 rest hr
                  obtain ⟨tr, s2, hrun, as2, b2, hrep, habs, hend⟩ := ih s1 rest true hrep1
                  refine ⟨(IterDir.front, some v1) :: tr, s2, ?_, as2, b2, hrep, ?_, hend⟩
                  · simp only [iterRun, iterStep, heq, hrun]
                  · simp only [List.map_cons, frontYields, backYields, List.filterMap_cons] at habs ⊢
                    rw [habs]
                    simp
      | back =>
          rcases List.eq_nil_or_concat as with rfl | ⟨bs, p, hbsp⟩
          · have ht : s.tail = none := by
              obtain ⟨_, _, _, htail, _⟩ := hr
              simpa using htail
            obtain ⟨tr, s2, hrun, as2, b2, hrep, habs, hend⟩ := ih s [] b hr
            refine ⟨(IterDir.back, none) :: tr, s2, ?_, as2, b2, hrep, ?_, hend⟩
            · simp only [iterRun, iterStep, pop_back_none s ht, hrun]
            · simpa [frontYields, backYields] using habs
          · rw [List.concat_eq_append] at hbsp
            subst hbsp
            obtain ⟨t, xt⟩ := p
            obtain ⟨s1, heq, hrep1, _⟩ := DRep_pop_back_snoc s bs t xt b hr
            obtain ⟨tr, s2, hrun, as2, b2, hrep, habs, hend⟩ :=
              ih s1 bs (bs.isEmpty || b) hrep1
            refine ⟨(IterDir.back, some xt) :: tr, s2, ?_, as2, b2, hrep, ?_, hend⟩
            · simp only [iterRun, iterStep, heq, hrun]
            · simp only [List.map_append, List.map_cons, List.map_nil, frontYields,
                backYields, List.filterMap_cons] at habs ⊢
              rw [habs]
              simp


end Fourth

/-! Claim theorems. -/

open Fourth Fifth in
/-- C1: the spec states that a push on an empty deque makes the new node
both head and tail.  push_front does; but push_back on the empty deque
assigns the tail handle twice and never the head handle (src/fourth.rs,
empty branch of push_back), so the head stays absent and a subsequent
pop_front returns none instead of the pushed value.  This evaluates the
embedded code at the failing input push_back(1) on the empty list. -/
theorem C1_push_back_empty_bug_eval :
    ((DList.new : DList Nat).push_front 1).head = some 0
    ∧ ((DList.new : DList Nat).push_front 1).tail = some 0
    ∧ ((DList.new : DList Nat).push_back 1).tail = some 0
    ∧ ((DList.new : DList Nat).push_back 1).head = none
    ∧ ((DList.new : DList Nat).push_back 1).pop_front
        = .ok (none, (DList.new : DList Nat).push_back 1) := by
  exact ⟨rfl, rfl, rfl, rfl, rfl⟩

open Fourth in
/-- C2: the spec invariant says head is present iff tail is present iff
the deque is non-empty, after any operation sequence.  After the single
operation push_back(1) on the empty deque the state has a non-empty
node chain and a present tail but an absent head, violating the
invariant (same push_back slip as C1). -/
theorem C2_head_iff_tail_bug_eval :
    runD [DOp.push_back 1] DList.new
      = .ok ((⟨none, some 0, [some ⟨1, none, none⟩]⟩ : DList Nat), [])
    ∧ (⟨none, some 0, [some ⟨1, none, none⟩]⟩ : DList Nat).tail ≠ none
    ∧ (⟨none, some 0, [some ⟨1, none, none⟩]⟩ : DList Nat).head = none := by
  refine ⟨rfl, ?_, rfl⟩
  intro h
  cases h

open Fourth in
/-- C3: the spec says popping from the opposite end from which elements
were pushed yields FIFO order, e.g. push_back(1), push_back(2) then two
pop_front calls should return 1 then 2.  Because push_back on the empty
deque never sets the head handle, both pop_front calls return none. -/
theorem C3_fifo_bug_eval :
    (runD [DOp.push_back 1, DOp.push_back 2, DOp.pop_front, DOp.pop_front]
      DList.new).map Prod.snd = .ok [none, none] := by
  rfl

open Fourth in
/-- C9: the spec says teardown repeatedly pops until the structure is
empty, destroying one node per iteration.  For the deque built by
push_back(1) on the empty list, the Drop loop (while pop_front is some)
performs zero iterations — pop_front immediately returns none because
the head handle was never set — and exits with the node still in the
structure, referenced by the tail handle.  (dropLoop takes explicit
fuel; 5 is more than enough here and the loop exits on its own.) -/
theorem C9_drop_loop_bug_eval :
    dropLoop 5 ((DList.new : DList Nat).push_back 1)
      = .ok ((DList.new : DList Nat).push_back 1)
    ∧ ((DList.new : DList Nat).push_back 1).tail = some 0
    ∧ hGet ((DList.new : DList Nat).push_back 1).heap 0 = some ⟨1, none, none⟩ := by
  exact ⟨rfl, rfl, rfl⟩

namespace Fifth

theorem QRep_new {T : Type} : QRep (QList.new : QList T) [] :=
  ⟨rfl, rfl, by simp⟩

end Fifth

open Fifth in
/-- C4: after every sequence of push/pop on the raw-pointer queue
starting from the empty queue, the tail pointer is null iff the chain
is empty, and otherwise it is the address reached by following next
from head exactly (length - 1) times.  (The invariant holding after
every operation includes, in particular, that a pop which empties the
chain nulls the tail within that same operation.) -/
theorem C4_queue_tail_invariant (ops : List (QOp Nat)) (s : QList Nat)
    (tr : List (Option Nat)) (hrun : runQ ops QList.new = .ok (s, tr)) :
    ∃ as, QRep s as ∧ (s.tail = none ↔ as = [])
      ∧ (as ≠ [] → followN s.heap s.head (as.length - 1) = s.tail) := by
  obtain ⟨sf, asf, hrun2, hrep, _⟩ := runQ_sim ops QList.new [] QRep_new
  rw [hrun] at hrun2
  cases hrun2
  refine ⟨asf, hrep, ?_, ?_⟩
  · obtain ⟨hseg, htail, _⟩ := hrep
    rw [htail]
    constructor
    · intro h
      rw [List.getLast?_eq_none_iff] at h
      simpa using h
    · intro h
      subst h
      rfl
  · intro hne
    obtain ⟨hseg, htail, _⟩ := hrep
    rcases asf.eq_nil_or_concat with rfl | ⟨bs, p, hbsp⟩
    · exact absurd rfl hne
    rw [List.concat_eq_append] at hbsp
    subst hbsp
    obtain ⟨t, y⟩ := p
    obtain ⟨hbs, _⟩ := QSeg_snoc bs s.heap s.head none t y hseg
    have hfol := QSeg_followN bs s.heap s.head (some t) hbs
    have hlen : (bs ++ [(t, y)]).length - 1 = bs.length := by
      rw [List.length_append]
      simp
    rw [hlen, hfol, htail]
    rw [List.map_append]
    simp only [List.map_cons, List.map_nil]
    rw [List.getLast?_concat]

/-- C4 witness: the invariant instantiated after push(1) then pop, a
sequence whose pop empties the chain and must null the tail. -/
theorem C4_queue_tail_invariant_witness :
    ∃ as, Fifth.QRep (⟨none, none, [none]⟩ : Fifth.QList Nat) as
      ∧ ((⟨none, none, [none]⟩ : Fifth.QList Nat).tail = none ↔ as = [])
      ∧ (as ≠ [] → Fifth.followN (⟨none, none, [none]⟩ : Fifth.QList Nat).heap
          (⟨none, none, [none]⟩ : Fifth.QList Nat).head (as.length - 1)
          = (⟨none, none, [none]⟩ : Fifth.QList Nat).tail) :=
  C4_queue_tail_invariant [Fifth.QOp.push 1, Fifth.QOp.pop] ⟨none, none, [none]⟩
    [some 1] (by rfl)

open Fifth in
/-- C5: the raw-pointer queue is FIFO: running any sequence of push/pop
operations from the empty queue produces exactly the pop results of the
abstract first-in-first-out queue (push appends, pop takes the front,
pop of the empty queue reports empty); and the consuming iterator's
next is definitionally pop.  In particular push(1), push(2) then three
pops return 1, 2, empty. -/
theorem C5_queue_fifo (T : Type) (ops : List (QOp T)) :
    (∃ s, runQ ops QList.new = .ok (s, (runModelQ ops []).2))
    ∧ (∀ s : QList T, s.intoIterNext = s.pop) := by
  constructor
  · obtain ⟨sf, asf, hrun, _, _⟩ := runQ_sim ops QList.new [] QRep_new
    exact ⟨sf, by simpa using hrun⟩
  · intro s
    rfl


open Fifth in
/-- C10: pushing onto the raw-pointer queue never changes the front:
for every reachable non-empty queue, peek returns the same value before
and after a push; and pushing onto the empty queue makes the pushed
value the front. -/
theorem C10_push_preserves_peek (ops : List (QOp Nat)) (s : QList Nat)
    (tr : List (Option Nat)) (v : Nat) (hrun : runQ ops QList.new = .ok (s, tr)) :
    (s.head ≠ none → (s.push v).peek = s.peek)
    ∧ (s.head = none → (s.push v).peek = some v) := by
  obtain ⟨sf, asf, hrun2, hrep, _⟩ := runQ_sim ops QList.new [] QRep_new
  rw [hrun] at hrun2
  cases hrun2
  have hpeek := QRep_peek s asf hrep
  have hrep2 := QRep_push s asf v hrep
  have hpeek2 := QRep_peek (s.push v) _ hrep2
  have hiff := QRep_head_none_iff s asf hrep
  constructor
  · intro hne
    have hasne : asf ≠ [] := fun he => hne (hiff.mpr he)
    rw [hpeek, hpeek2, List.map_append]
    cases asf with
    | nil => exact absurd rfl hasne
    | cons q rest => rfl
  · intro he
    have : asf = [] := hiff.mp he
    subst this
    rw [hpeek2]
    rfl

/-- C10 witness: instantiated with the empty build sequence (empty
queue) and the value 7. -/
theorem C10_push_preserves_peek_witness :
    ((Fifth.QList.new : Fifth.QList Nat).head ≠ none →
      ((Fifth.QList.new : Fifth.QList Nat).push 7).peek = (Fifth.QList.new : Fifth.QList Nat).peek)
    ∧ ((Fifth.QList.new : Fifth.QList Nat).head = none →
      ((Fifth.QList.new : Fifth.QList Nat).push 7).peek = some 7) :=
  C10_push_preserves_peek [] Fifth.QList.new [] 7 (by rfl)

open Fourth in
/-- C6: the runtime borrow discipline of the deque's peeks, with the
node's RefCell borrow flag made explicit.  While a mutable access
handle is live (flag -1), both peek_front and peek_front_mut on that
node report a borrow conflict instead of granting access; while any
shared handle is live (flag positive), peek_front_mut reports a
conflict; releasing the mutable handle resets the flag to 0, and with
flag 0 a new peek (shared or mutable) on the same node succeeds. -/
theorem C6_borrow_conflict (s : DList Nat) (flags : Nat → BorrowFlag) (a : Nat)
    (n : Node Nat) (hh : s.head = some a) (hn : hGet s.heap a = some n) :
    (flags a = -1 →
      s.peek_front flags = some (.error ())
      ∧ s.peek_front_mut flags = some (.error ()))
    ∧ (0 < flags a → s.peek_front_mut flags = some (.error ()))
    ∧ (∀ f : BorrowFlag, releaseBorrowMut f = 0)
    ∧ (flags a = 0 →
      s.peek_front flags = some (.ok (n.elem, 1))
      ∧ s.peek_front_mut flags = some (.ok (n.elem, -1))) := by
  refine ⟨?_, ?_, fun _ => rfl, ?_⟩
  · intro hf
    constructor
    · simp only [DList.peek_front, hh, Option.map_some', hn, tryBorrow, hf]
      rfl
    · simp only [DList.peek_front_mut, hh, Option.map_some', hn, tryBorrowMut, hf]
      rfl
  · intro hf
    have hne : flags a ≠ 0 := fun he => lt_irrefl 0 (he ▸ hf)
    simp only [DList.peek_front_mut, hh, Option.map_some', hn, tryBorrowMut, if_neg hne]
    rfl
  · intro hf
    constructor
    · simp only [DList.peek_front, hh, Option.map_some', hn, tryBorrow, hf]
      rfl
    · simp only [DList.peek_front_mut, hh, Option.map_some', hn, tryBorrowMut, hf]
      rfl

/-- C6 witness: the deque holding the single front value 5 (built by
push_front on the empty deque), with a live mutable handle on it. -/
theorem C6_borrow_conflict_witness :
    ((fun _ => (-1 : Fourth.BorrowFlag)) 0 = -1 →
      ((Fourth.DList.new : Fourth.DList Nat).push_front 5).peek_front (fun _ => -1)
        = some (.error ())
      ∧ ((Fourth.DList.new : Fourth.DList Nat).push_front 5).peek_front_mut (fun _ => -1)
        = some (.error ()))
    ∧ (0 < (fun _ => (-1 : Fourth.BorrowFlag)) 0 →
      ((Fourth.DList.new : Fourth.DList Nat).push_front 5).peek_front_mut (fun _ => -1)
        = some (.error ()))
    ∧ (∀ f : Fourth.BorrowFlag, Fourth.releaseBorrowMut f = 0)
    ∧ ((fun _ => (-1 : Fourth.BorrowFlag)) 0 = 0 →
      ((Fourth.DList.new : Fourth.DList Nat).push_front 5).peek_front (fun _ => -1)
        = some (.ok ((⟨5, none, none⟩ : Fourth.Node Nat).elem, 1))
      ∧ ((Fourth.DList.new : Fourth.DList Nat).push_front 5).peek_front_mut (fun _ => -1)
        = some (.ok ((⟨5, none, none⟩ : Fourth.Node Nat).elem, -1))) :=
  C6_borrow_conflict ((Fourth.DList.new : Fourth.DList Nat).push_front 5)
    (fun _ => -1) 0 ⟨5, none, none⟩ (by rfl) (by rfl)

open Fourth in
/-- C7: running any sequence of public deque operations from the empty
deque never reaches a runtime fault: in particular the checked
ownership takeover Rc::try_unwrap(..).ok().unwrap() inside pop_front
and pop_back (embedded as the refsIn-zero test whose failure branch is
the sharedNode error) never fails, because after unlinking, the popped
boundary node always has exactly one remaining owner.  If the node were
still shared the embedded operation would return the error instead of
continuing, mirroring the loud panic of unwrap. -/
theorem C7_pop_unwrap_never_fails (T : Type) (ops : List (DOp T)) :
    ∃ res, runD ops DList.new = .ok res :=
  runD_ok ops DList.new [] true DRep_new

open Fourth in
/-- C8: consuming iteration over any deque built through the public
API, under any interleaving of forward (next = pop_front) and backward
(next_back = pop_back) steps.  The values yielded by the two directions
are a prefix and a (reversed) suffix of the deque's element sequence
with the remaining middle held by the final state, so no element is
yielded twice and the directions never observe elements consumed by
the other; once the structure is exhausted (tail gone), the forward and
backward yields together cover every element of the deque exactly once,
and every further next or next_back from either direction consistently
returns empty. -/
theorem C8_iterator_both_ends (ops : List (DOp Nat)) (steps : List IterDir)
    (s0 : DList Nat) (trd : List (Option Nat))
    (hrun : runD ops DList.new = .ok (s0, trd)) :
    ∃ tr s2, iterRun steps s0 = .ok (tr, s2) ∧
      ∀ as b, DRep s0 as b →
        ∃ as2 b2, DRep s2 as2 b2 ∧
          as.map Prod.snd
            = frontYields tr ++ as2.map Prod.snd ++ (backYields tr).reverse ∧
          (s2.tail = none →
            as.map Prod.snd = frontYields tr ++ (backYields tr).reverse ∧
            ∀ steps2, iterRun steps2 s2 = .ok (steps2.map (fun d => (d, none)), s2)) := by
  obtain ⟨as0, b0, hrep0⟩ := runD_rep ops DList.new [] true DRep_new s0 trd hrun
  obtain ⟨tr, s2, hit, _, _, _, _, _⟩ := iterRun_spec steps s0 as0 b0 hrep0
  refine ⟨tr, s2, hit, ?_⟩
  intro as b hrep
  obtain ⟨tr2, s2b, hit2, as2, b2, hrep2, habs, hend⟩ := iterRun_spec steps s0 as b hrep
  rw [hit] at hit2
  cases hit2
  refine ⟨as2, b2, hrep2, habs, ?_⟩
  intro ht
  obtain ⟨hnil, hhead⟩ := hend ht
  subst hnil
  constructor
  · simpa using habs
  · intro steps2
    exact iterRun_empty steps2 s2 hhead ht

/-- C8 witness: the one-element deque built by push_front(1), drained
by a single forward step. -/
theorem C8_iterator_both_ends_witness :
    ∃ tr s2, Fourth.iterRun [Fourth.IterDir.front]
        ((Fourth.DList.new : Fourth.DList Nat).push_front 1) = .ok (tr, s2) ∧
      ∀ as b, Fourth.DRep ((Fourth.DList.new : Fourth.DList Nat).push_front 1) as b →
        ∃ as2 b2, Fourth.DRep s2 as2 b2 ∧
          as.map Prod.snd
            = Fourth.frontYields tr ++ as2.map Prod.snd
              ++ (Fourth.backYields tr).reverse ∧
          (s2.tail = none →
            as.map Prod.snd = Fourth.frontYields tr ++ (Fourth.backYields tr).reverse ∧
            ∀ steps2, Fourth.iterRun steps2 s2
              = .ok (steps2.map (fun d => (d, none)), s2)) :=
  C8_iterator_both_ends [Fourth.DOp.push_front 1] [Fourth.IterDir.front]
    ((Fourth.DList.new : Fourth.DList Nat).push_front 1) [] (by rfl)
